import Mathlib

/-!
# Remote-Access-PC-free: path guard, listing, archive streaming and entry mutation

A shallow embedding of `main.go`.  The handlers are functions of an explicit
environment (working directory, filesystem tree) that return the HTTP answer
and, for the mutating handlers, the filesystem afterwards.

The Go standard library calls the handlers make (`path/filepath`, `strings`,
`os`, `archive/zip`) are embedded for a Unix host: the separator is `/`, there
are no volume names.  The filesystem is a tree of files and directories without
symbolic links or permissions; a directory lists its children in file-name
order, which is the order `os.ReadDir` and `filepath.Walk` use.  The I/O errors
a download can meet while it reads the tree and writes the response are given
by oracles (`Faults`).
-/

namespace RemoteAccess

/-! ## `strings` -/

namespace strings

/-- Go `strings.HasPrefix(s, p)`: `s` begins with `p`. -/
def HasPrefix (s p : String) : Bool := p.toList.isPrefixOf s.toList

/-- Go `strings.HasSuffix(s, p)`: `s` ends with `p`. -/
def HasSuffix (s p : String) : Bool := p.toList.reverse.isPrefixOf s.toList.reverse

end strings

/-! ## `path/filepath` on a Unix host -/

namespace filepath

/-- Go `filepath.Separator` on Unix. -/
def Separator : Char := '/'

/-- The pieces of a path between separators (empty pieces included). -/
def elements (p : List Char) : List (List Char) := p.splitOn Separator

/-- Whether a path begins with the separator. -/
def rooted (p : List Char) : Bool := p.head? == some Separator

/-- One element of the lexical normalisation `Clean` performs.  `stk` is the
output so far, last element first.  Empty elements and `.` are dropped; `..`
removes the preceding element unless there is none or it is itself `..`, in
which case a rooted path drops the `..` and an unrooted one keeps it. -/
def cleanStep (isRooted : Bool) (stk : List (List Char)) (e : List Char) : List (List Char) :=
  if e = [] ∨ e = ['.'] then stk
  else if e = ['.', '.'] then
    match stk with
    | [] => if isRooted then [] else [e]
    | top :: rest => if top = ['.', '.'] then e :: stk else rest
  else e :: stk

/-- The normalised elements of a path, first element first. -/
def cleanElements (p : List Char) : List (List Char) :=
  ((elements p).foldl (cleanStep (rooted p)) []).reverse

/-- Writes a rooted flag and normalised elements back as a path: a rooted path
starts with one separator, an unrooted path without elements is `.`. -/
def render (isRooted : Bool) (es : List (List Char)) : List Char :=
  if isRooted then Separator :: [Separator].intercalate es
  else if es = [] then ['.'] else [Separator].intercalate es

/-- `Clean` on characters. -/
def cleanChars (p : List Char) : List Char := render (rooted p) (cleanElements p)

/-- Go `filepath.Clean`: the shortest path equivalent to `path` by purely
lexical processing (collapse separators, drop `.`, resolve inner `..`, drop
`..` at the start of a rooted path; the empty path becomes `.`). -/
def Clean (path : String) : String := String.mk (cleanChars path.toList)

/-- Go `filepath.Join` with two elements: the first non-empty element onwards,
joined by the separator and cleaned; empty when both are empty. -/
def Join (a b : String) : String :=
  if a ≠ "" then Clean (a ++ "/" ++ b)
  else if b ≠ "" then Clean b
  else ""

/-- Go `filepath.IsAbs` on Unix. -/
def IsAbs (path : String) : Bool := strings.HasPrefix path "/"

/-- Go `filepath.Abs`: an absolute path is cleaned, a relative one is joined to
the working directory; it fails when the working directory cannot be had
(`getwd = none`). -/
def Abs (getwd : Option String) (path : String) : Option String :=
  if IsAbs path then some (Clean path)
  else match getwd with
    | none => none
    | some wd => some (Join wd path)

/-- Go `filepath.Base`: the last element of the path after trailing separators
are removed; `.` for the empty path, the separator for a path of separators. -/
def Base (path : String) : String :=
  if path = "" then "."
  else
    let stripped := path.toList.reverse.dropWhile (· == Separator)
    let last := (stripped.takeWhile (· != Separator)).reverse
    if last = [] then "/" else String.mk last

/-- Drops the longest common run of leading elements of base and target. -/
def dropCommon : List (List Char) → List (List Char) → List (List Char) × List (List Char)
  | b :: bs, t :: ts => if b = t then dropCommon bs ts else (b :: bs, t :: ts)
  | bs, ts => (bs, ts)

/-- The elements `Rel` steps through: none for the empty path, and for a rooted
path an empty first element followed by the elements after the separator. -/
def relElements (p : List Char) : List (List Char) :=
  if p = [] then [] else if p = [Separator] then [[]] else elements p

/-- Go `filepath.Rel`: a relative path that is lexically equivalent to `targpath`
when joined to `basepath`, in cleaned form.  Both paths are cleaned; equal
paths give `.`; `.` counts as the empty path.  It fails when one path is rooted
and the other is not, and when the first element of the base that the target
does not share is `..`, since the name of a directory would then be needed. -/
def Rel (basepath targpath : String) : Except String String :=
  let base := (Clean basepath).toList
  let targ := (Clean targpath).toList
  if targ = base then .ok "."
  else
    let base := if base = ['.'] then [] else base
    let targ := if targ = ['.'] then [] else targ
    if rooted base != rooted targ then
      .error ("Rel: can\x27t make " ++ targpath ++ " relative to " ++ basepath)
    else
      let (bs, ts) := dropCommon (relElements base) (relElements targ)
      if bs.head? = some ['.', '.'] then
        .error ("Rel: can\x27t make " ++ targpath ++ " relative to " ++ basepath)
      else if bs ≠ [] then
        let ups := [Separator].intercalate (bs.map (fun _ => ['.', '.']))
        .ok (String.mk (if ts ≠ [] then ups ++ Separator :: [Separator].intercalate ts else ups))
      else .ok (String.mk ([Separator].intercalate ts))

end filepath

/-! ## Filesystem and `os` -/

/-- A filesystem node: a regular file with its content, or a directory with its
named children in file-name order. -/
inductive Node where
  | file (content : String)
  | dir (children : List (String × Node))

/-- The error numbers the embedding distinguishes. -/
inductive Errno where
  | ENOENT | ENOTDIR | EISDIR | EEXIST | ENOTEMPTY | EINVAL | EBUSY
  deriving DecidableEq, Repr

/-- Text of an error number (Go `syscall.Errno.Error`). -/
def Errno.Error : Errno → String
  | .ENOENT => "no such file or directory"
  | .ENOTDIR => "not a directory"
  | .EISDIR => "is a directory"
  | .EEXIST => "file exists"
  | .ENOTEMPTY => "directory not empty"
  | .EINVAL => "invalid argument"
  | .EBUSY => "device or resource busy"

/-- Go `*fs.PathError`: the operation, the path it was asked to act on, and the
error number. -/
structure PathError where
  Op : String
  Path : String
  Err : Errno
  deriving DecidableEq, Repr

/-- Go `PathError.Error`. -/
def PathError.Error (e : PathError) : String :=
  e.Op ++ " " ++ e.Path ++ ": " ++ e.Err.Error

/-- Go `FileInfo.IsDir`. -/
def Node.IsDir : Node → Bool
  | .file _ => false
  | .dir _ => true

/-- The node reached from `n` along the names `p`: `ENOTDIR` when a name is
looked up in a regular file, `ENOENT` when a directory has no such child. -/
def Node.find : Node → List String → Except Errno Node
  | n, [] => .ok n
  | .file _, _ :: _ => .error .ENOTDIR
  | .dir cs, x :: xs =>
    match cs.lookup x with
    | none => .error .ENOENT
    | some c => c.find xs

/-- The order of file names: lexicographic by character code. -/
def nameLt : List Char → List Char → Bool
  | _, [] => false
  | [], _ :: _ => true
  | a :: as, b :: bs => if a.toNat < b.toNat then true else if a = b then nameLt as bs else false

/-- Puts a child into a directory listing, keeping file-name order; a child of
the same name is replaced. -/
def putChild (x : String) (n : Node) : List (String × Node) → List (String × Node)
  | [] => [(x, n)]
  | (y, c) :: rest =>
    if x = y then (x, n) :: rest
    else if nameLt x.toList y.toList then (x, n) :: (y, c) :: rest
    else (y, c) :: putChild x n rest

/-- Removes the child of the given name from a directory listing. -/
def dropChild (x : String) (cs : List (String × Node)) : List (String × Node) :=
  cs.filter (fun yc => yc.1 != x)

/-- Changes the entry at the non-empty path `p`: `f` receives the node now at
`p` (if any) and answers the node to leave there (`none` removes it) or an
error.  The directories leading to `p` must exist. -/
def Node.alter (f : Option Node → Except Errno (Option Node)) : Node → List String → Except Errno Node
  | _, [] => .error .EBUSY
  | .file _, _ :: _ => .error .ENOTDIR
  | .dir cs, [x] =>
    match f (cs.lookup x) with
    | .error e => .error e
    | .ok none => .ok (.dir (dropChild x cs))
    | .ok (some n) => .ok (.dir (putChild x n cs))
  | .dir cs, x :: y :: ys =>
    match cs.lookup x with
    | none => .error .ENOENT
    | some c =>
      match c.alter f (y :: ys) with
      | .error e => .error e
      | .ok c1 => .ok (.dir (putChild x c1 cs))

/-- The names from the root to the place an absolute cleaned path denotes. -/
def pathNames (abs : String) : List String :=
  (filepath.cleanElements abs.toList).map String.mk

/-- The place a path handed to the operating system denotes: relative paths
start at the working directory.  `none` when that directory cannot be had. -/
def resolve (getwd : Option String) (path : String) : Option (List String) :=
  (filepath.Abs getwd path).map pathNames

namespace os

/-- Go `os.Stat`; of its `*PathError` only the error number is kept, which is
all the handlers look at. -/
def Stat (getwd : Option String) (fs : Node) (path : String) : Except Errno Node :=
  if path = "" then .error .ENOENT
  else match resolve getwd path with
    | none => .error .ENOENT
    | some p => fs.find p

/-- Go `os.IsNotExist`. -/
def IsNotExist (e : Errno) : Bool := e = .ENOENT

/-- Go `os.Mkdir`: the parent must be a directory and the name unused. -/
def Mkdir (getwd : Option String) (fs : Node) (path : String) : Except PathError Node :=
  if path = "" then .error ⟨"mkdir", path, .ENOENT⟩
  else match resolve getwd path with
    | none => .error ⟨"mkdir", path, .ENOENT⟩
    | some [] => .error ⟨"mkdir", path, .EEXIST⟩
    | some p =>
      match fs.alter (fun old => match old with
          | none => .ok (some (.dir []))
          | some _ => .error .EEXIST) p with
      | .error e => .error ⟨"mkdir", path, e⟩
      | .ok fs1 => .ok fs1

/-- The parent `os.MkdirAll` goes on with: the path up to the separator before
its last element, trailing separators aside; empty when there is none. -/
def parentOf (path : String) : String :=
  let upToSeparator := (path.toList.reverse.dropWhile (· == filepath.Separator)).dropWhile
    (· != filepath.Separator)
  String.mk (upToSeparator.drop 1).reverse

/-- The recursion of `os.MkdirAll`, for at most `fuel` levels (the parent is
shorter than the path, so the length of the path and one more are enough): an
existing directory is a success, an existing file an error; else the parent is
made first and then the path itself. -/
def mkdirAllLevels (getwd : Option String) : Nat → Node → String → Except PathError Node
  | 0, _, path => .error ⟨"mkdir", path, .ENOENT⟩
  | fuel + 1, fs, path =>
    match Stat getwd fs path with
    | .ok (.dir _) => .ok fs
    | .ok (.file _) => .error ⟨"mkdir", path, .ENOTDIR⟩
    | .error _ =>
      let parent := parentOf path
      let made := if parent ≠ "" then mkdirAllLevels getwd fuel fs parent else .ok fs
      match made with
      | .error e => .error e
      | .ok fs1 =>
        match Mkdir getwd fs1 path with
        | .ok fs2 => .ok fs2
        | .error e =>
          match Stat getwd fs1 path with
          | .ok (.dir _) => .ok fs1
          | _ => .error e

/-- Go `os.MkdirAll`. -/
def MkdirAll (getwd : Option String) (fs : Node) (path : String) : Except PathError Node :=
  mkdirAllLevels getwd (path.length + 1) fs path

/-- Go `os.Remove`: removes a file or an empty directory. -/
def Remove (getwd : Option String) (fs : Node) (path : String) : Except PathError Node :=
  if path = "" then .error ⟨"remove", path, .ENOENT⟩
  else match resolve getwd path with
    | none => .error ⟨"remove", path, .ENOENT⟩
    | some p =>
      match fs.alter (fun old => match old with
          | none => .error .ENOENT
          | some (.file _) => .ok none
          | some (.dir []) => .ok none
          | some (.dir (_ :: _)) => .error .ENOTEMPTY) p with
      | .error e => .error ⟨"remove", path, e⟩
      | .ok fs1 => .ok fs1

/-- Whether the last element of the path is `.` (Go `endsWithDot`). -/
def endsWithDot (path : String) : Bool :=
  path = "." || strings.HasSuffix path "/."

/-- Whether the last element of the path is `..`. -/
def endsWithDotDot (path : String) : Bool :=
  path = ".." || strings.HasSuffix path "/.."

/-- Go `splitPath` of `os.RemoveAll`: the directory and the base name of a path,
`.` being the directory of a path without separator before its last element. -/
def splitPath (path : String) : String × String :=
  let stripped := (path.toList.reverse.dropWhile (· == filepath.Separator)).reverse
  let p := if stripped = [] then path.toList.take 1 else stripped
  let base := (p.reverse.takeWhile (· != filepath.Separator)).reverse
  let dir := (p.reverse.dropWhile (· != filepath.Separator)).reverse
  if p.length ≤ 1 ∨ dir = [] then (".", String.mk p)
  else if dir.length = 1 then (String.mk dir, String.mk base)
  else (String.mk dir.dropLast, String.mk base)

/-- Go `os.RemoveAll`: removes the path and everything beneath it, and answers
the error (if any) together with the filesystem left behind.  A path that does
not exist is a success; a path ending in `.` is refused; a directory named by a
path ending in `..`, and the root, lose their content, after which removing the
directory itself fails.  The path of an `unlinkat` error is written as
directory, separator and base name. -/
def RemoveAll (getwd : Option String) (fs : Node) (path : String) : Option PathError × Node :=
  if path = "" then (none, fs)
  else if endsWithDot path then (some ⟨"RemoveAll", path, .EINVAL⟩, fs)
  else
    let shown := (splitPath path).1 ++ "/" ++ (splitPath path).2
    match resolve getwd path with
    | none => (some ⟨"unlinkat", shown, .ENOENT⟩, fs)
    | some [] => (some ⟨"unlinkat", shown, .EBUSY⟩, .dir [])
    | some p =>
      match fs.find p with
      | .error e => (if IsNotExist e then none else some ⟨"unlinkat", shown, e⟩, fs)
      | .ok n =>
        if endsWithDotDot path then
          match n, fs.alter (fun _ => .ok (some (.dir []))) p with
          | .dir _, .ok fs1 => (some ⟨"unlinkat", shown, .ENOTEMPTY⟩, fs1)
          | _, _ => (some ⟨"unlinkat", shown, .ENOTDIR⟩, fs)
        else
          match fs.alter (fun _ => .ok none) p with
          | .error e => (some ⟨"unlinkat", shown, e⟩, fs)
          | .ok fs1 => (none, fs1)

/-- Go `os.Create` followed by writing `content` and closing: the file is made
or truncated; a directory cannot be opened for writing. -/
def Create (getwd : Option String) (fs : Node) (path content : String) :
    Except PathError Node :=
  if path = "" then .error ⟨"open", path, .ENOENT⟩
  else match resolve getwd path with
    | none => .error ⟨"open", path, .ENOENT⟩
    | some [] => .error ⟨"open", path, .EISDIR⟩
    | some p =>
      match fs.alter (fun old => match old with
          | some (.dir _) => .error .EISDIR
          | _ => .ok (some (.file content))) p with
      | .error e => .error ⟨"open", path, e⟩
      | .ok fs1 => .ok fs1

end os

/-! ## `archive/zip` writer -/

namespace zip

/-- Compression methods. -/
inductive Method where
  | Store | Deflate
  deriving DecidableEq, Repr

/-- The fields of `zip.FileHeader` the handler sets. -/
structure FileHeader where
  Name : String
  Method : Method
  deriving DecidableEq, Repr

/-- An entry of the archive: its name, method and (uncompressed) payload. -/
structure Entry where
  name : String
  method : Method
  content : String
  deriving DecidableEq, Repr

/-- State of a `zip.Writer`: the entries begun so far, whether the entry begun
last is a file entry still open, the `closed` flag and the number of uses made
of the underlying sink; and two counters kept for reasoning: how often `Close`
was invoked and how often the trailing central directory was written in full. -/
structure Writer where
  entries : List Entry
  lastOpen : Bool
  closed : Bool
  sinkUses : Nat
  closeCalls : Nat
  directoryRecords : Nat
  deriving DecidableEq, Repr

/-- Go `zip.NewWriter`. -/
def NewWriter : Writer :=
  { entries := [], lastOpen := false, closed := false, sinkUses := 0, closeCalls := 0,
    directoryRecords := 0 }

/-- Go `zip.FileInfoHeader`: the base name of the node, with a trailing slash
for a directory; the method is `Store`. -/
def FileInfoHeader (baseName : String) (info : Node) : FileHeader :=
  { Name := if info.IsDir then baseName ++ "/" else baseName, Method := .Store }

/-- Go `fileWriter.close` on the entry begun last: the entry is marked closed
and its compressed data and descriptor are flushed, `sink k` being the error of
the underlying sink on its `k`-th use. -/
def Writer.closeLast (w : Writer) (sink : Nat → Option String) : Writer × Option String :=
  ({ w with lastOpen := false, sinkUses := w.sinkUses + 1 }, sink w.sinkUses)

/-- Go `Writer.CreateHeader`: an entry still open is closed first, and its
error returned; then the new entry is entered and its header written.  A name
ending in a slash makes a directory entry, which is always stored and is not
left open.  (Names are taken to be within the 65535 bytes the format allows.) -/
def Writer.CreateHeader (w : Writer) (sink : Nat → Option String) (h : FileHeader) :
    Writer × Option String :=
  let closedLast := if w.lastOpen then w.closeLast sink else (w, none)
  match closedLast with
  | (w1, some e) => (w1, some e)
  | (w1, none) =>
    let isDir := strings.HasSuffix h.Name "/"
    let w2 := { w1 with
      entries := w1.entries ++
        [{ name := h.Name, method := if isDir then .Store else h.Method, content := "" }],
      sinkUses := w1.sinkUses + 1 }
    match sink w1.sinkUses with
    | some e => (w2, some e)
    | none => ({ w2 with lastOpen := !isDir }, none)

/-- Writing through the `io.Writer` of the entry begun last; writing nothing
does not touch the sink. -/
def Writer.write (w : Writer) (sink : Nat → Option String) (data : String) :
    Writer × Option String :=
  if data = "" then (w, none)
  else
    match sink w.sinkUses with
    | some e => ({ w with sinkUses := w.sinkUses + 1 }, some e)
    | none =>
      match w.entries.reverse with
      | [] => ({ w with sinkUses := w.sinkUses + 1 }, none)
      | e :: before =>
        ({ w with
            entries := (({ e with content := e.content ++ data }) :: before).reverse,
            sinkUses := w.sinkUses + 1 }, none)

/-- The second half of `Writer.Close`: a closed writer answers an error and
writes nothing; otherwise the writer is marked closed and the central directory
is written, `directoryErr` being the error of the sink while that is done: the
directory counts as written when the sink took all of it. -/
def Writer.finish (w : Writer) (directoryErr : Option String) : Writer × Option String :=
  if w.closed then (w, some "zip: writer closed twice")
  else
    match directoryErr with
    | some e => ({ w with closed := true, sinkUses := w.sinkUses + 1 }, some e)
    | none =>
      ({ w with closed := true, directoryRecords := w.directoryRecords + 1,
                sinkUses := w.sinkUses + 1 }, none)

/-- Go `Writer.Close`: an entry still open is closed first, and when that fails
its error is returned at once, before the writer is marked closed or the
central directory written. -/
def Writer.Close (w : Writer) (sink : Nat → Option String) (directoryErr : Option String) :
    Writer × Option String :=
  let w0 := { w with closeCalls := w.closeCalls + 1 }
  if w0.lastOpen then
    match w0.closeLast sink with
    | (w1, some e) => (w1, some e)
    | (w1, none) => w1.finish directoryErr
  else w0.finish directoryErr

end zip

/-! ## I/O faults -/

/-- The faults a download can meet.  Each field answers the error of one kind
of operation, `none` when the operation succeeds: `lstat` of a path and reading
the names of a directory during the walk, `zip.FileInfoHeader` for the node at
a path, `os.Open` of a path, reading the opened file during `io.Copy`, the
`k`-th use of the response sink for the entries of the archive, and the use of
the sink for the central directory. -/
structure Faults where
  lstatErr : String → Option String
  readDirErr : String → Option String
  headerErr : String → Option String
  openErr : String → Option String
  readErr : String → Option String
  sinkErr : Nat → Option String
  directoryErr : Option String

/-- No operation fails. -/
def noFaults : Faults :=
  { lstatErr := fun _ => none, readDirErr := fun _ => none, headerErr := fun _ => none,
    openErr := fun _ => none, readErr := fun _ => none, sinkErr := fun _ => none,
    directoryErr := none }

/-- No operation fails before the archive is finalized: the only fault left
open is the one of writing the central directory. -/
def Faults.quiet (faults : Faults) : Prop :=
  (∀ p, faults.lstatErr p = none) ∧ (∀ p, faults.readDirErr p = none) ∧
  (∀ p, faults.headerErr p = none) ∧ (∀ p, faults.openErr p = none) ∧
  (∀ p, faults.readErr p = none) ∧ (∀ k, faults.sinkErr k = none)

/-! ## `filepath.Walk` -/

mutual
/-- Go `filepath.walk`.  The callback receives the path and, as one value, the
`FileInfo` or the error met: it runs on the node, and on a directory whose
names could not be read it receives that error; then the children follow in
order.  The first error stops the walk. -/
def walk {σ : Type} (faults : Faults) (walkFn : String → Except String Node → σ → σ × Option String)
    (path : String) (info : Node) (s : σ) : σ × Option String :=
  match info with
  | .file c => walkFn path (.ok (.file c)) s
  | .dir cs =>
    match faults.readDirErr path with
    | some e => walkFn path (.error e) s
    | none =>
      match walkFn path (.ok (.dir cs)) s with
      | (s1, some e) => (s1, some e)
      | (s1, none) => walkNames faults walkFn path cs s1
/-- The loop of `walk` over the names of a directory.  A child whose `lstat`
fails is handed to the callback with that error; else its node is the one the
listing holds, which is what `lstat` of the joined path finds. -/
def walkNames {σ : Type} (faults : Faults)
    (walkFn : String → Except String Node → σ → σ × Option String)
    (path : String) (cs : List (String × Node)) (s : σ) : σ × Option String :=
  match cs with
  | [] => (s, none)
  | (name, c) :: rest =>
    match faults.lstatErr (filepath.Join path name) with
    | some e =>
      match walkFn (filepath.Join path name) (.error e) s with
      | (s1, some e1) => (s1, some e1)
      | (s1, none) => walkNames faults walkFn path rest s1
    | none =>
      match walk faults walkFn (filepath.Join path name) c s with
      | (s1, some e) => (s1, some e)
      | (s1, none) => walkNames faults walkFn path rest s1
end

/-- Go `filepath.Walk`: the root is examined first; when that fails the
callback receives the error. -/
def Walk {σ : Type} (getwd : Option String) (fs : Node) (faults : Faults) (root : String)
    (walkFn : String → Except String Node → σ → σ × Option String) (s : σ) :
    σ × Option String :=
  match faults.lstatErr root with
  | some e => walkFn root (.error e) s
  | none =>
    match os.Stat getwd fs root with
    | .error e => walkFn root (.error (PathError.Error ⟨"lstat", root, e⟩)) s
    | .ok info => walk faults walkFn root info s

/-! ## The handlers of `main.go` -/

/-- What a handler sends back. -/
inductive Response where
  /-- `http.Error` with a status and a message. -/
  | error (status : Nat) (body : String)
  /-- A 303 redirect to the listing of `path` carrying `key=msg`
  (`key` is `error` or `success`). -/
  | redirect (path key msg : String)
  /-- Status 200 with a text body. -/
  | ok (body : String)
  /-- A file sent as attachment. -/
  | file (filename content : String)
  /-- A folder streamed as archive: the writer at the end of the handler, and
  the message of the `http.Error` raised while streaming, if any. -/
  | archive (filename : String) (zw : zip.Writer) (failure : Option String)
  deriving DecidableEq, Repr

/-- `isPathSafe`: the absolute form of the path can be built and exists. -/
def isPathSafe (getwd : Option String) (fs : Node) (path : String) : Bool :=
  match filepath.Abs getwd path with
  | none => false
  | some absPath =>
    match os.Stat getwd fs absPath with
    | .error _ => false
    | .ok _ => true

/-- `isPathSafeParent`: the absolute form of `path` starts with the absolute
form of `parent`, as strings. -/
def isPathSafeParent (getwd : Option String) (path parent : String) : Bool :=
  match filepath.Abs getwd path with
  | none => false
  | some absPath =>
    match filepath.Abs getwd parent with
    | none => false
    | some absParent => strings.HasPrefix absPath absParent

/-- The name the walk callback of `downloadFile` gives an entry: `rel` is the
result of `filepath.Rel`, and a directory gets the host separator appended. -/
def headerName (hostSeparator : Char) (rel : String) (isDir : Bool) : String :=
  if isDir then rel ++ hostSeparator.toString else rel

/-- The callback `downloadFile` hands to `filepath.Walk` (lines 232-273): one
archive entry per visited node, named relative to the folder being archived.
An error received is handed back, and so is the error of `zip.FileInfoHeader`,
`filepath.Rel`, `zw.CreateHeader`, `os.Open` and `io.Copy`; a read error of
`io.Copy` is taken to come before anything is written. -/
def zipWalkFn (faults : Faults) (filePath : String) (file : String) (info : Except String Node)
    (zw : zip.Writer) : zip.Writer × Option String :=
  match info with
  | .error e => (zw, some e)
  | .ok info =>
    match faults.headerErr file with
    | some e => (zw, some e)
    | none =>
      let header := zip.FileInfoHeader (filepath.Base file) info
      match filepath.Rel filePath file with
      | .error e => (zw, some e)
      | .ok rel =>
        let header := { header with Name := headerName filepath.Separator rel info.IsDir }
        let header := if info.IsDir then header else { header with Method := .Deflate }
        match zw.CreateHeader faults.sinkErr header with
        | (zw, some e) => (zw, some e)
        | (zw, none) =>
          match info with
          | .dir _ => (zw, none)
          | .file content =>
            match faults.openErr file with
            | some e => (zw, some e)
            | none =>
              match faults.readErr file with
              | some e => (zw, some e)
              | none => zw.write faults.sinkErr content

/-- The folder branch of `downloadFile` (lines 222-284).  `zw.Close` is deferred
at the start, so it runs once more on every return. -/
def downloadFolder (getwd : Option String) (fs : Node) (faults : Faults)
    (filePath name : String) : Response :=
  let zipFileName := name ++ ".zip"
  let zw := zip.NewWriter
  match Walk getwd fs faults filePath (zipWalkFn faults filePath) zw with
  | (zw, some e) =>
    let zw := (zw.Close faults.sinkErr faults.directoryErr).1
    .archive zipFileName zw (some ("Error creating ZIP file: " ++ e))
  | (zw, none) =>
    match zw.Close faults.sinkErr faults.directoryErr with
    | (zw, some e) =>
      let zw := (zw.Close faults.sinkErr faults.directoryErr).1
      .archive zipFileName zw (some ("Error finalizing ZIP file: " ++ e))
    | (zw, none) =>
      let zw := (zw.Close faults.sinkErr faults.directoryErr).1
      .archive zipFileName zw none

/-- `downloadFile`: `currentPath` and `name` are the query parameters `path` and
`file`; `faults` are the I/O faults met while sending. -/
def downloadFile (getwd : Option String) (fs : Node) (faults : Faults)
    (currentPath name : String) : Response :=
  if name = "" ∨ currentPath = "" then .error 400 "Missing file or path parameter"
  else
    let currentPath := filepath.Clean currentPath
    if !isPathSafe getwd fs currentPath then .error 400 "Invalid path or access denied"
    else
      let filePath := filepath.Join currentPath (filepath.Clean name)
      if !isPathSafeParent getwd filePath currentPath then .error 400 "Invalid file path"
      else
        match os.Stat getwd fs filePath with
        | .error _ => .error 404 "File or folder not found"
        | .ok (.dir _) => downloadFolder getwd fs faults filePath name
        | .ok (.file content) =>
          match faults.openErr filePath with
          | some _ => .error 404 "File not found"
          | none =>
            match faults.readErr filePath, faults.sinkErr 0 with
            | none, none => .file (filepath.Base filePath) content
            | _, _ => .error 500 "Error downloading file"

/-- `deleteFile`: the answer and the filesystem afterwards. -/
def deleteFile (getwd : Option String) (fs : Node) (method currentPath name : String) :
    Response × Node :=
  if method ≠ "DELETE" then (.error 405 "Invalid method", fs)
  else if name = "" ∨ currentPath = "" then (.error 400 "Missing file or path parameter", fs)
  else
    let currentPath := filepath.Clean currentPath
    if !isPathSafe getwd fs currentPath then (.error 400 "Invalid path or access denied", fs)
    else
      let filePath := filepath.Join currentPath (filepath.Clean name)
      if !isPathSafeParent getwd filePath currentPath then (.error 400 "Invalid file path", fs)
      else
        match os.Stat getwd fs filePath with
        | .error _ => (.error 404 "File or folder not found", fs)
        | .ok _ =>
          match os.RemoveAll getwd fs filePath with
          | (some e, fs1) => (.error 500 ("Failed to delete: " ++ e.Error), fs1)
          | (none, fs1) => (.ok "Deleted successfully", fs1)

/-- The text `fmt.Sprintf("%s (%d)", baseName, count)`. -/
def numberedName (baseName : String) (count : Nat) : String :=
  baseName ++ " (" ++ toString count ++ ")"

/-- The loop of `createFolder` that looks for an unused default name (lines
495-503), run for at most `fuel` rounds: `none` when the rounds are used up. -/
def defaultNameLoop (getwd : Option String) (fs : Node) (currentPath baseName : String) :
    Nat → Nat → String → Option String
  | 0, _, _ => none
  | fuel + 1, count, folderName =>
    let folderPath := filepath.Join currentPath (filepath.Clean folderName)
    match os.Stat getwd fs folderPath with
    | .error e =>
      if os.IsNotExist e then some folderName
      else defaultNameLoop getwd fs currentPath baseName fuel (count + 1) (numberedName baseName count)
    | .ok _ =>
      defaultNameLoop getwd fs currentPath baseName fuel (count + 1) (numberedName baseName count)

/-- The folder name `createFolder` goes on with (lines 488-504): the one asked
for, or the default name found by the loop. -/
def chooseFolderName (getwd : Option String) (fs : Node) (fuel : Nat)
    (currentPath folderName : String) : Option String :=
  if folderName = "" then defaultNameLoop getwd fs currentPath "New Folder" fuel 1 "New Folder"
  else some folderName

/-- `createFolder`: the answer and the filesystem afterwards; `none` when the
default-name loop does not end within `fuel` rounds.  `formErr` is the error of
`r.ParseForm`. -/
def createFolder (getwd : Option String) (fs : Node) (fuel : Nat) (method : String)
    (formErr : Option String) (currentPath folderName : String) : Option (Response × Node) :=
  if method ≠ "POST" then some (.error 405 "Invalid method", fs)
  else match formErr with
  | some e => some (.error 400 ("Failed to parse form: " ++ e), fs)
  | none =>
    if currentPath = "" then some (.redirect currentPath "error" "Missing path", fs)
    else
      let currentPath := filepath.Clean currentPath
      if !isPathSafe getwd fs currentPath then
        some (.redirect currentPath "error" "Invalid path or access denied", fs)
      else
        match chooseFolderName getwd fs fuel currentPath folderName with
        | none => none
        | some folderName =>
          let folderPath := filepath.Join currentPath (filepath.Clean folderName)
          if !isPathSafeParent getwd folderPath currentPath then
            some (.redirect currentPath "error" "Invalid folder path", fs)
          else
            match os.Mkdir getwd fs folderPath with
            | .error e =>
              some (.redirect currentPath "error" ("Failed to create folder: " ++ e.Error), fs)
            | .ok fs1 =>
              some (.redirect currentPath "success"
                ("Folder \x27" ++ folderName ++ "\x27 created successfully"), fs1)

/-- `uploadFile`: the answer and the filesystem afterwards.  `formErr` is the
error of `r.ParseMultipartForm`, `currentPath` the form value `path`, and
`upload` the result of `r.FormFile("file")`: an error, or the file name of the
part and its content. -/
def uploadFile (defaultBaseDir : String) (getwd : Option String) (fs : Node) (method : String)
    (formErr : Option String) (currentPath : String) (upload : Except String (String × String)) :
    Response × Node :=
  if method ≠ "POST" then (.error 405 "Invalid method", fs)
  else match formErr with
  | some e => (.error 400 ("Failed to parse form: " ++ e), fs)
  | none =>
    let currentPath := if currentPath = "" then defaultBaseDir else currentPath
    let currentPath := filepath.Clean currentPath
    let prepared : Except (Response × Node) Node :=
      if !isPathSafe getwd fs currentPath then
        match os.MkdirAll getwd fs currentPath with
        | .error e =>
          .error (.redirect currentPath "error"
            ("Cannot access or create directory " ++ currentPath ++ ": " ++ e.Error ++
              " (try running the application as administrator)"), fs)
        | .ok fs1 =>
          if !isPathSafe getwd fs1 currentPath then
            .error (.redirect currentPath "error"
              "Invalid path or access denied (try running the application as administrator)",
              fs1)
          else .ok fs1
      else .ok fs
    match prepared with
    | .error r => r
    | .ok fs =>
      match upload with
      | .error e => (.redirect currentPath "error" ("Upload error: " ++ e), fs)
      | .ok (filename, content) =>
        let dstPath := filepath.Join currentPath (filepath.Base filename)
        if !isPathSafeParent getwd dstPath currentPath then
          (.redirect currentPath "error" "Invalid file path", fs)
        else
          let removed : Except Response Node :=
            match os.Stat getwd fs dstPath with
            | .error _ => .ok fs
            | .ok _ =>
              match os.Remove getwd fs dstPath with
              | .error e =>
                .error (.redirect currentPath "error"
                  ("File " ++ dstPath ++ " already exists and cannot be overwritten: " ++ e.Error ++
                    " (ensure the file is not open in another program)"))
              | .ok fs1 => .ok fs1
          match removed with
          | .error r => (r, fs)
          | .ok fs =>
            match os.Create getwd fs dstPath content with
            | .error e =>
              (.redirect currentPath "error"
                ("Failed to save file to " ++ dstPath ++ ": " ++ e.Error ++
                  " (try running the application as administrator or check directory permissions)"),
               fs)
            | .ok fs1 =>
              (.redirect currentPath "success"
                ("File \x27" ++ filename ++ "\x27 uploaded successfully to " ++ currentPath), fs1)

/-! ## The listing loop of `fileBrowser` -/

/-- What `f.Info()` yields: the size in bytes and the modification time, kept
here in the layout `2006-01-02 15:04:05` the handler prints it in. -/
structure FileStat where
  Size : Nat
  ModTime : String
  deriving DecidableEq, Repr

/-- An element of the result of `os.ReadDir`: name, type bit, and the outcome
of fetching its metadata. -/
structure DirEntry where
  Name : String
  IsDir : Bool
  Info : Except String FileStat

/-- The `FileInfo` rows handed to the template. -/
structure FileInfo where
  Name : String
  Typ : String
  Size : String
  Modified : String
  deriving DecidableEq, Repr

/-- The value of `float64(size)`: sizes of more than 53 bits are rounded to 53
significant bits, ties to even. -/
def toFloat64 (size : Nat) : Nat :=
  if size < 2 ^ 53 then size
  else
    let sh := Nat.log2 size + 1 - 53
    let q := size / 2 ^ sh
    let r := size % 2 ^ sh
    let half := 2 ^ (sh - 1)
    (if r > half ∨ (r = half ∧ q % 2 = 1) then q + 1 else q) * 2 ^ sh

/-- The text `fmt.Sprintf("%.2f", float64(size)/float64(1<<unitShift))`: the
quotient is exact, and it is printed rounded to hundredths, ties to even. -/
def sprintf2f (size unitShift : Nat) : String :=
  let num := toFloat64 size * 100
  let den := 2 ^ unitShift
  let q := num / den
  let r := num % den
  let h := if 2 * r > den ∨ (2 * r = den ∧ q % 2 = 1) then q + 1 else q
  toString (h / 100) ++ "." ++ (if h % 100 < 10 then "0" else "") ++ toString (h % 100)

/-- The size column of a regular file (lines 122-132). -/
def formatSize (size : Nat) : String :=
  if size ≥ 2 ^ 30 then sprintf2f size 30 ++ " GB"
  else if size ≥ 2 ^ 20 then sprintf2f size 20 ++ " MB"
  else if size ≥ 2 ^ 10 then sprintf2f size 10 ++ " KB"
  else toString size ++ " bytes"

/-- The loop over the directory entries (lines 105-146): `list` is the slice
built so far; an entry whose metadata cannot be fetched is skipped. -/
def listLoop : List DirEntry → List FileInfo → List FileInfo
  | [], list => list
  | f :: files, list =>
    let ftype := if f.IsDir then "folder" else "file"
    match f.Info with
    | .error _ => listLoop files list
    | .ok info =>
      let sizeStr := if !f.IsDir then formatSize info.Size else "-"
      listLoop files (list ++ [{ Name := f.Name, Typ := ftype, Size := sizeStr,
                                 Modified := info.ModTime }])

/-- The rows `fileBrowser` shows for the result of `os.ReadDir`. -/
def fileList (files : List DirEntry) : List FileInfo := listLoop files []

/-! ## Notions used to state the properties -/

/-- A path lies within a root when the names leading to the root are the first
names leading to the path: it is the root or a descendant of it. -/
def withinRoot (root path : String) : Bool :=
  (pathNames root).isPrefixOf (pathNames path)

/-- An example tree: `/a/b` holds a file and a folder, `/a/bc` is a sibling
whose name starts with `b`, `/a/e` is an empty folder, and `/etc/passwd` lies
outside `/a`. -/
def exampleFs : Node :=
  .dir [("a", .dir [("b", .dir [("sub", .dir [("y.txt", .file "yo")]), ("x.txt", .file "hi")]),
                    ("bc", .file "secret"),
                    ("e", .dir [])]),
        ("etc", .dir [("passwd", .file "root:x:0:0")])]

/-- An example fault: `/a/b/sub/y.txt` cannot be opened. -/
def exampleOpenFault : Faults :=
  { noFaults with
    openErr := fun p =>
      if p = "/a/b/sub/y.txt" then some "open /a/b/sub/y.txt: permission denied" else none }

/-- An example fault: the client goes away after three writes, so that every
later use of the sink fails, the writing of the central directory included. -/
def exampleSinkFault : Faults :=
  { noFaults with
    sinkErr := fun k => if k < 3 then none else some "write: broken pipe",
    directoryErr := some "write: broken pipe" }

/-- The archive entries a response carries (none unless it is an archive). -/
def Response.entries : Response → List zip.Entry
  | .archive _ zw _ => zw.entries
  | _ => []

/-- The archive writer a response carries, if it is an archive. -/
def Response.writer : Response → Option zip.Writer
  | .archive _ zw _ => some zw
  | _ => none

/-- The separator of a Windows host. -/
def windowsSeparator : Char := Char.ofNat 92

/-- Whether the metadata of a directory entry could be fetched. -/
def DirEntry.readable (f : DirEntry) : Bool :=
  match f.Info with
  | .ok _ => true
  | .error _ => false

/-- How a row of the listing answers to the directory entry it was made from. -/
def rowOf (f : DirEntry) (e : FileInfo) : Prop :=
  e.Name = f.Name ∧
  ∃ st, f.Info = .ok st ∧ e.Modified = st.ModTime ∧
    (f.IsDir = true → e.Typ = "folder" ∧ e.Size = "-") ∧
    (f.IsDir = false → e.Typ = "file" ∧ e.Size = formatSize st.Size ∧ e.Size ≠ "-")

/-- A writer on which `Close` has not been invoked. -/
def zip.Writer.untouched (zw : zip.Writer) : Prop :=
  zw.closed = false ∧ zw.closeCalls = 0 ∧ zw.directoryRecords = 0

/-- What can be seen of a node at its own path: the content of a file, nothing
more for a directory. -/
def Node.payload : Node → Option String
  | .file c => some c
  | .dir _ => none

/-- What is found at the names `q`: an error, or the payload of the node. -/
def Node.at (fs : Node) (q : List String) : Except Errno (Option String) :=
  match fs.find q with
  | .error e => .error e
  | .ok n => .ok n.payload

/-! ## Notions used to state the archive properties -/

namespace filepath

/-- A file name: not empty, not `.` or `..`, and without separator. -/
def IsName (e : List Char) : Prop :=
  e ≠ [] ∧ e ≠ ['.'] ∧ e ≠ ['.', '.'] ∧ Separator ∉ e

instance : DecidablePred IsName := fun e => by unfold IsName; infer_instance

/-- The shape of the output of the normalisation, last element first: names,
preceded (in path order) by `..` elements, which a rooted path never has. -/
def NormalStack (isRooted : Bool) (stk : List (List Char)) : Prop :=
  ∃ k names, stk = names ++ List.replicate k ['.', '.'] ∧ (∀ n ∈ names, IsName n) ∧
    (isRooted = true → k = 0)

/-- Normalised elements in path order. -/
def Normal (isRooted : Bool) (es : List (List Char)) : Prop := NormalStack isRooted es.reverse

end filepath

mutual
/-- Whether all names in a tree are file names. -/
def namesOk : Node → Bool
  | .file _ => true
  | .dir cs => childrenOk cs
/-- The same for the children of a directory. -/
def childrenOk : List (String × Node) → Bool
  | [] => true
  | (n, c) :: rest => decide (filepath.IsName n.toList) && namesOk c && childrenOk rest
end

mutual
/-- The nodes of a tree in walk order, each with the names that lead to it from
the top: the node itself first, then the subtrees of its children in order. -/
def visited (rel : List String) : Node → List (List String × Node)
  | .file c => [(rel, .file c)]
  | .dir cs => (rel, .dir cs) :: visitedChildren rel cs
/-- The same for the children of a directory. -/
def visitedChildren (rel : List String) : List (String × Node) → List (List String × Node)
  | [] => []
  | (n, c) :: rest => visited (rel ++ [n]) c ++ visitedChildren rel rest
end

mutual
/-- The number of nodes of a tree, the top node included. -/
def countNodes : Node → Nat
  | .file _ => 1
  | .dir cs => 1 + countChildren cs
/-- The number of nodes below a directory with the given children. -/
def countChildren : List (String × Node) → Nat
  | [] => 0
  | (_, c) :: rest => countNodes c + countChildren rest
end

/-- The path of a node relative to the archived folder, written with forward
slashes: `.` for the folder itself, else the names leading to the node. -/
def relName (rel : List String) : String :=
  if rel = [] then "." else String.mk (['/'].intercalate (rel.map String.toList))

/-- The archive entry expected for a visited node: for a directory a stored,
empty entry named by the relative path and a trailing slash, for a file a
deflated entry named by the relative path that holds the content. -/
def entryFor (v : List String × Node) : zip.Entry :=
  match v.2 with
  | .file c => { name := relName v.1, method := .Deflate, content := c }
  | .dir _ => { name := relName v.1 ++ "/", method := .Store, content := "" }

/-- The cleaned path `rel` names below the cleaned path with the given rooted
flag and elements. -/
def filepath.below (isRooted : Bool) (es : List (List Char)) (rel : List String) : String :=
  String.mk (filepath.render isRooted (es ++ rel.map String.toList))

/-- The default folder names in the order `createFolder` tries them. -/
def defaultName : Nat → String
  | 0 => "New Folder"
  | n + 1 => numberedName "New Folder" (n + 1)

/-! ## Lemmas -/

/-! ### The listing loop -/

theorem formatSize_ne_dash (size : Nat) : formatSize size ≠ "-" := by
  intro h
  have hl := congrArg String.length h
  have e0 : "-".length = 1 := by decide
  have e1 : " GB".length = 3 := by decide
  have e2 : " MB".length = 3 := by decide
  have e3 : " KB".length = 3 := by decide
  have e4 : " bytes".length = 6 := by decide
  unfold formatSize at hl
  split_ifs at hl <;> simp only [String.length_append, e0, e1, e2, e3, e4] at hl <;> omega

theorem listLoop_append (files : List DirEntry) (acc : List FileInfo) :
    listLoop files acc = acc ++ listLoop files [] := by
  induction files generalizing acc with
  | nil => simp [listLoop]
  | cons f files ih =>
    unfold listLoop
    cases hf : f.Info with
    | error e => simpa using ih acc
    | ok st =>
      simp only []
      rw [ih (acc ++ _), ih ([] ++ _)]
      simp

theorem listLoop_rows (files : List DirEntry) :
    List.Forall₂ rowOf (files.filter DirEntry.readable) (listLoop files []) := by
  induction files with
  | nil => simp [listLoop]
  | cons f files ih =>
    unfold listLoop
    cases hf : f.Info with
    | error e =>
      have : f.readable = false := by simp [DirEntry.readable, hf]
      simpa [List.filter_cons, this] using ih
    | ok st =>
      have hr : f.readable = true := by simp [DirEntry.readable, hf]
      simp only []
      rw [listLoop_append, List.filter_cons, if_pos hr]
      refine List.Forall₂.cons ?_ ih
      refine ⟨rfl, st, hf, rfl, ?_, ?_⟩
      · intro hd; simp [hd]
      · intro hd; simp [hd, formatSize_ne_dash]

theorem listLoop_length (files : List DirEntry) (h : ∀ f ∈ files, f.readable = true) :
    (listLoop files []).length = files.length := by
  have := (listLoop_rows files).length_eq
  rw [← this, List.filter_eq_self.2 (by simpa using h)]

/-! ### The walk and the archive writer -/

mutual
theorem walk_preserves {σ : Type} (P : σ → Prop) (faults : Faults)
    (walkFn : String → Except String Node → σ → σ × Option String)
    (hfn : ∀ p n s, P s → P (walkFn p n s).1) (path : String) (info : Node) (s : σ) (hs : P s) :
    P (walk faults walkFn path info s).1 := by
  match info with
  | .file c => rw [walk]; exact hfn _ _ _ hs
  | .dir cs =>
    rw [walk]
    cases faults.readDirErr path with
    | some e => exact hfn _ _ _ hs
    | none =>
      have h1 := hfn path (.ok (.dir cs)) s hs
      rcases hw : walkFn path (.ok (.dir cs)) s with ⟨s1, _ | e⟩
      · rw [hw] at h1
        exact walkNames_preserves P faults walkFn hfn path cs s1 h1
      · rw [hw] at h1; exact h1
theorem walkNames_preserves {σ : Type} (P : σ → Prop) (faults : Faults)
    (walkFn : String → Except String Node → σ → σ × Option String)
    (hfn : ∀ p n s, P s → P (walkFn p n s).1) (path : String) (cs : List (String × Node))
    (s : σ) (hs : P s) :
    P (walkNames faults walkFn path cs s).1 := by
  match cs with
  | [] => rw [walkNames]; exact hs
  | (name, c) :: rest =>
    rw [walkNames]
    cases faults.lstatErr (filepath.Join path name) with
    | some e =>
      dsimp only
      have h1 := hfn (filepath.Join path name) (.error e) s hs
      rcases hw : walkFn (filepath.Join path name) (.error e) s with ⟨s1, _ | e1⟩
      · rw [hw] at h1
        exact walkNames_preserves P faults walkFn hfn path rest s1 h1
      · rw [hw] at h1; exact h1
    | none =>
      dsimp only
      have h1 := walk_preserves P faults walkFn hfn (filepath.Join path name) c s hs
      rcases hw : walk faults walkFn (filepath.Join path name) c s with ⟨s1, _ | e⟩
      · rw [hw] at h1
        exact walkNames_preserves P faults walkFn hfn path rest s1 h1
      · rw [hw] at h1; exact h1
end

theorem CreateHeader_untouched (zw : zip.Writer) (sink : Nat → Option String)
    (h : zip.FileHeader) (hu : zw.untouched) : (zw.CreateHeader sink h).1.untouched := by
  obtain ⟨h1, h2, h3⟩ := hu
  unfold zip.Writer.CreateHeader zip.Writer.closeLast zip.Writer.untouched
  cases hl : zw.lastOpen <;> cases hs : sink zw.sinkUses <;>
    cases ht : sink (zw.sinkUses + 1) <;> simp [h1, h2, h3, hs, ht]

theorem write_untouched (zw : zip.Writer) (sink : Nat → Option String) (data : String)
    (hu : zw.untouched) : (zw.write sink data).1.untouched := by
  obtain ⟨h1, h2, h3⟩ := hu
  unfold zip.Writer.write zip.Writer.untouched
  by_cases hd : data = ""
  · simp [hd, h1, h2, h3]
  · cases hs : sink zw.sinkUses <;> cases hr : zw.entries.reverse <;>
      simp [hd, h1, h2, h3]

theorem zipWalkFn_untouched (faults : Faults) (filePath file : String)
    (info : Except String Node) (zw : zip.Writer) (h : zw.untouched) :
    (zipWalkFn faults filePath file info zw).1.untouched := by
  unfold zipWalkFn
  cases info with
  | error e => exact h
  | ok info =>
    cases faults.headerErr file with
    | some e => exact h
    | none =>
      cases filepath.Rel filePath file with
      | error e => exact h
      | ok rel =>
        simp only []
        have hc := CreateHeader_untouched zw faults.sinkErr
          (if info.IsDir = true then
            { zip.FileInfoHeader (filepath.Base file) info with
              Name := headerName filepath.Separator rel info.IsDir }
          else
            { ({ zip.FileInfoHeader (filepath.Base file) info with
                Name := headerName filepath.Separator rel info.IsDir } : zip.FileHeader) with
              Method := .Deflate }) h
        rcases hcr : zw.CreateHeader faults.sinkErr _ with ⟨zw1, _ | e⟩
        · rw [hcr] at hc
          cases info with
          | dir cs => exact hc
          | file content =>
            simp only []
            cases faults.openErr file with
            | some e => exact hc
            | none =>
              cases faults.readErr file with
              | some e => exact hc
              | none => exact write_untouched _ _ _ hc
        · rw [hcr] at hc; exact hc

theorem Walk_zip_untouched (getwd : Option String) (fs : Node) (faults : Faults)
    (filePath : String) :
    (Walk getwd fs faults filePath (zipWalkFn faults filePath) zip.NewWriter).1.untouched := by
  unfold Walk
  have h0 : zip.NewWriter.untouched := ⟨rfl, rfl, rfl⟩
  cases faults.lstatErr filePath with
  | some e => exact zipWalkFn_untouched _ _ _ _ _ h0
  | none =>
    cases os.Stat getwd fs filePath with
    | error e => exact zipWalkFn_untouched _ _ _ _ _ h0
    | ok info => exact walk_preserves _ _ _ (zipWalkFn_untouched faults filePath) _ _ _ h0

/-- The writer after `Close` on a writer on which `Close` was not invoked
before: one invocation is counted and no entry is left open; when closing the
open entry fails the writer is not marked closed and no central directory is
written, otherwise the writer is marked closed and the central directory is
written in full unless the sink fails. -/
theorem Close_untouched (zw : zip.Writer) (sink : Nat → Option String)
    (directoryErr : Option String) (hu : zw.untouched) :
    (zw.Close sink directoryErr).1.closeCalls = 1 ∧
    (zw.Close sink directoryErr).1.lastOpen = false ∧
    ((zw.lastOpen = true ∧ (sink zw.sinkUses).isSome = true) →
      (zw.Close sink directoryErr).1.directoryRecords = 0 ∧
      (zw.Close sink directoryErr).1.closed = false ∧
      (zw.Close sink directoryErr).2 = sink zw.sinkUses) ∧
    (¬(zw.lastOpen = true ∧ (sink zw.sinkUses).isSome = true) →
      (zw.Close sink directoryErr).1.directoryRecords = (if directoryErr.isSome then 0 else 1) ∧
      (zw.Close sink directoryErr).1.closed = true ∧
      (zw.Close sink directoryErr).2 = directoryErr) := by
  obtain ⟨h1, h2, h3⟩ := hu
  unfold zip.Writer.Close zip.Writer.closeLast zip.Writer.finish
  cases hl : zw.lastOpen <;> cases hs : sink zw.sinkUses <;> cases directoryErr <;>
    simp [h1, h2, h3, hl, hs]

/-- The writer after two invocations of `Close` on a writer on which `Close`
was not invoked before: both are counted, the writer is marked closed, and the
central directory is written in full once unless the sink fails on it. -/
theorem Close_twice (zw : zip.Writer) (sink : Nat → Option String)
    (directoryErr : Option String) (hu : zw.untouched) :
    ((zw.Close sink directoryErr).1.Close sink directoryErr).1.closeCalls = 2 ∧
    ((zw.Close sink directoryErr).1.Close sink directoryErr).1.closed = true ∧
    ((zw.Close sink directoryErr).1.Close sink directoryErr).1.directoryRecords =
      (if directoryErr.isSome then 0 else 1) := by
  obtain ⟨h1, h2, h3⟩ := hu
  unfold zip.Writer.Close zip.Writer.closeLast zip.Writer.finish
  cases hl : zw.lastOpen <;> cases hs : sink zw.sinkUses <;> cases directoryErr <;>
    simp [h1, h2, h3, hl, hs]

/-! ### Removal from the tree -/

theorem lookup_putChild_self (x : String) (n : Node) (cs : List (String × Node)) :
    (putChild x n cs).lookup x = some n := by
  induction cs with
  | nil => simp [putChild, List.lookup]
  | cons yc rest ih =>
    obtain ⟨y, c⟩ := yc
    unfold putChild
    split_ifs with h1 h2
    · simp [List.lookup]
    · simp [List.lookup]
    · have : (x == y) = false := by simpa using h1
      simp [List.lookup, this, ih]

theorem lookup_putChild_other (x z : String) (n : Node) (cs : List (String × Node))
    (h : z ≠ x) : (putChild x n cs).lookup z = cs.lookup z := by
  have hzx : (z == x) = false := by simpa using h
  induction cs with
  | nil => simp [putChild, List.lookup, hzx]
  | cons yc rest ih =>
    obtain ⟨y, c⟩ := yc
    unfold putChild
    split_ifs with h1 h2
    · subst h1; simp [List.lookup, hzx]
    · simp [List.lookup, hzx]
    · simp only [List.lookup]
      cases hzy : z == y <;> simp [ih]

theorem lookup_dropChild_self (x : String) (cs : List (String × Node)) :
    (dropChild x cs).lookup x = none := by
  induction cs with
  | nil => simp [dropChild]
  | cons yc rest ih =>
    obtain ⟨y, c⟩ := yc
    unfold dropChild at ih ⊢
    by_cases h : y = x
    · simp [List.filter_cons, h, ih]
    · have : (x == y) = false := by simpa using fun h2 => h h2.symm
      simp [List.filter_cons, h, List.lookup, this, ih]

theorem lookup_dropChild_other (x z : String) (cs : List (String × Node)) (h : z ≠ x) :
    (dropChild x cs).lookup z = cs.lookup z := by
  induction cs with
  | nil => simp [dropChild]
  | cons yc rest ih =>
    obtain ⟨y, c⟩ := yc
    unfold dropChild at ih ⊢
    by_cases hy : y = x
    · have hzx : (z == x) = false := by simpa using h
      subst hy
      simp [List.filter_cons, List.lookup, hzx, ih]
    · simp only [List.filter_cons, bne_iff_ne, ne_eq, hy, not_false_eq_true, ↓reduceIte,
        List.lookup]
      cases hzy : z == y <;> simp [ih]

/-- After the subtree at `p` is removed, nothing is found at `p` or beneath it
and every other place shows what it showed before. -/
theorem at_after_remove (p : List String) :
    ∀ (fs fs1 : Node), fs.alter (fun _ => .ok none) p = .ok fs1 →
      ∀ q, fs1.at q = if p.isPrefixOf q then .error .ENOENT else fs.at q := by
  induction p with
  | nil => intro fs fs1 h; simp [Node.alter] at h
  | cons x ps ih =>
    intro fs fs1 h q
    cases fs with
    | file c => simp [Node.alter] at h
    | dir cs =>
      cases ps with
      | nil =>
        simp only [Node.alter] at h
        injection h with h
        subst h
        cases q with
        | nil => simp [Node.at, Node.find, Node.payload]
        | cons z zs =>
          by_cases hz : z = x
          · subst hz
            simp [Node.at, Node.find, lookup_dropChild_self]
          · have hxz : x ≠ z := fun h2 => hz h2.symm
            simp [Node.at, Node.find, lookup_dropChild_other _ _ _ hz, hxz]
      | cons y ys =>
        simp only [Node.alter] at h
        cases hl : cs.lookup x with
        | none => simp [hl] at h
        | some c =>
          simp only [hl] at h
          cases hc : c.alter (fun _ => .ok none) (y :: ys) with
          | error e => simp [hc] at h
          | ok c1 =>
            simp only [hc] at h
            injection h with h
            subst h
            cases q with
            | nil => simp [Node.at, Node.find, Node.payload]
            | cons z zs =>
              by_cases hz : z = x
              · subst hz
                have := ih c c1 hc zs
                simp only [Node.at] at this
                simp [Node.at, Node.find, lookup_putChild_self, hl, this]
              · have hxz : x ≠ z := fun h2 => hz h2.symm
                simp [Node.at, Node.find, lookup_putChild_other _ _ _ _ hz, hxz]


theorem alter_remove_ok (p : List String) :
    ∀ (fs n : Node), p ≠ [] → fs.find p = .ok n →
      ∃ fs1, fs.alter (fun _ => .ok none) p = .ok fs1 := by
  induction p with
  | nil => intro fs n h; exact absurd rfl h
  | cons x ps ih =>
    intro fs n _ hf
    cases fs with
    | file c => simp [Node.find] at hf
    | dir cs =>
      cases ps with
      | nil => exact ⟨_, rfl⟩
      | cons y ys =>
        simp only [Node.find] at hf
        cases hl : cs.lookup x with
        | none => simp [hl] at hf
        | some c =>
          simp only [hl] at hf
          obtain ⟨c1, hc1⟩ := ih c n (by simp) hf
          exact ⟨.dir (putChild x c1 cs), by simp [Node.alter, hl, hc1]⟩

theorem Stat_ok_resolve {getwd : Option String} {fs n : Node} {path : String}
    (h : os.Stat getwd fs path = .ok n) :
    path ≠ "" ∧ ∃ p, resolve getwd path = some p ∧ fs.find p = .ok n := by
  unfold os.Stat at h
  split_ifs at h with h0
  cases hr : resolve getwd path with
  | none => simp [hr] at h
  | some p => exact ⟨h0, p, rfl, by simpa [hr] using h⟩

theorem RemoveAll_of_found {getwd : Option String} {fs n : Node} {path : String}
    {p : List String} (h0 : path ≠ "") (hr : resolve getwd path = some p)
    (hf : fs.find p = .ok n) :
    (∀ fs1, os.RemoveAll getwd fs path = (none, fs1) →
      fs.alter (fun _ => .ok none) p = .ok fs1) ∧
    (p ≠ [] → os.endsWithDot path = false → os.endsWithDotDot path = false →
      ∃ fs1, os.RemoveAll getwd fs path = (none, fs1)) := by
  unfold os.RemoveAll
  rw [if_neg h0, hr]
  cases hd : os.endsWithDot path with
  | true => simp
  | false =>
    cases p with
    | nil => simp
    | cons x ps =>
      obtain ⟨fs2, h2⟩ := alter_remove_ok (x :: ps) fs n (by simp) hf
      cases hdd : os.endsWithDotDot path with
      | true =>
        refine ⟨?_, by simp⟩
        intro fs1
        simp only [Bool.false_eq_true, if_false, if_true, hf]
        split <;> simp
      | false => simp [hf, h2]

/-! ### Lexical normalisation of paths -/

namespace filepath

theorem cleanStep_name (r : Bool) (stk : List (List Char)) {e : List Char} (h : IsName e) :
    cleanStep r stk e = e :: stk := by
  obtain ⟨h1, h2, h3, _⟩ := h
  simp [cleanStep, h1, h2, h3]

theorem foldl_cleanStep_names (r : Bool) (es : List (List Char)) :
    ∀ stk, (∀ e ∈ es, IsName e) → es.foldl (cleanStep r) stk = es.reverse ++ stk := by
  induction es with
  | nil => intro stk _; rfl
  | cons e es ih =>
    intro stk h
    rw [List.foldl_cons, cleanStep_name r stk (h e (List.mem_cons_self _ _)),
      ih _ (fun x hx => h x (List.mem_cons_of_mem _ hx))]
    simp

theorem foldl_cleanStep_dotdots (k : Nat) :
    ∀ j, (List.replicate k ['.', '.']).foldl (cleanStep false) (List.replicate j ['.', '.']) =
      List.replicate (j + k) ['.', '.'] := by
  induction k with
  | zero => intro j; rfl
  | succ k ih =>
    intro j
    rw [List.replicate_succ, List.foldl_cons]
    have : cleanStep false (List.replicate j ['.', '.']) ['.', '.'] =
        List.replicate (j + 1) ['.', '.'] := by
      cases j with
      | zero => simp [cleanStep]
      | succ j => simp [cleanStep, List.replicate_succ]
    rw [this, ih (j + 1)]
    congr 1; omega

theorem foldl_cleanStep_normal {r : Bool} {es : List (List Char)} (h : Normal r es) :
    es.foldl (cleanStep r) [] = es.reverse := by
  obtain ⟨k, names, hes, hn, hk⟩ := h
  have hes2 : es = List.replicate k ['.', '.'] ++ names.reverse := by
    have := congrArg List.reverse hes
    simpa using this
  rw [hes, hes2, List.foldl_append]
  cases r with
  | true =>
    have : k = 0 := hk rfl
    subst this
    simp only [List.replicate_zero, List.foldl_nil, List.append_nil]
    rw [foldl_cleanStep_names true _ _ (by simpa using hn)]
    simp
  | false =>
    have := foldl_cleanStep_dotdots k 0
    simp only [List.replicate_zero, Nat.zero_add] at this
    rw [this, foldl_cleanStep_names false _ _ (by simpa using hn)]
    simp

theorem normalStack_cleanStep {r : Bool} {stk : List (List Char)} {e : List Char}
    (h : NormalStack r stk) (he : Separator ∉ e) : NormalStack r (cleanStep r stk e) := by
  by_cases h1 : e = [] ∨ e = ['.']
  · simpa [cleanStep, h1] using h
  by_cases h2 : e = ['.', '.']
  · subst h2
    obtain ⟨k, names, hs, hn, hk⟩ := h
    cases names with
    | nil =>
      cases k with
      | zero =>
        subst hs
        cases r with
        | true => exact ⟨0, [], by simp [cleanStep], by simp, fun _ => rfl⟩
        | false => exact ⟨1, [], by simp [cleanStep], by simp, by simp⟩
      | succ k =>
        subst hs
        refine ⟨k + 2, [], ?_, by simp, ?_⟩
        · simp [cleanStep, List.replicate_succ]
        · intro hr; have := hk hr; omega
    | cons n names =>
      subst hs
      have hnn : IsName n := hn n (List.mem_cons_self _ _)
      have : n ≠ ['.', '.'] := hnn.2.2.1
      refine ⟨k, names, ?_, fun x hx => hn x (List.mem_cons_of_mem _ hx), hk⟩
      simp [cleanStep, this]
  · obtain ⟨k, names, hs, hn, hk⟩ := h
    have hname : IsName e := ⟨by tauto, by tauto, h2, he⟩
    rw [cleanStep_name r stk hname]
    refine ⟨k, e :: names, by simp [hs], ?_, hk⟩
    intro x hx
    rcases List.mem_cons.1 hx with rfl | hx
    · exact hname
    · exact hn x hx

theorem normalStack_foldl {r : Bool} (es : List (List Char)) :
    ∀ stk, NormalStack r stk → (∀ e ∈ es, Separator ∉ e) →
      NormalStack r (es.foldl (cleanStep r) stk) := by
  induction es with
  | nil => intro stk h _; exact h
  | cons e es ih =>
    intro stk h he
    rw [List.foldl_cons]
    exact ih _ (normalStack_cleanStep h (he e (List.mem_cons_self _ _)))
      (fun x hx => he x (List.mem_cons_of_mem _ hx))

theorem elements_no_sep (p : List Char) : ∀ e ∈ elements p, Separator ∉ e := by
  unfold elements List.splitOn
  induction p with
  | nil => simp
  | cons c p ih =>
    rw [List.splitOnP_cons]
    split_ifs with hc
    · intro e he
      rcases List.mem_cons.1 he with rfl | he
      · simp
      · exact ih e he
    · have hne := List.splitOnP_ne_nil (· == Separator) p
      cases hsp : List.splitOnP (· == Separator) p with
      | nil => exact absurd hsp hne
      | cons hd tl =>
        rw [hsp] at ih
        intro e he
        simp only [List.modifyHead, List.mem_cons] at he
        rcases he with rfl | he
        · have := ih hd (List.mem_cons_self _ _)
          simp only [List.mem_cons, not_or]
          exact ⟨fun h => hc (by simp [h]), this⟩
        · exact ih e (List.mem_cons_of_mem _ he)

theorem normal_cleanElements (p : List Char) : Normal (rooted p) (cleanElements p) := by
  unfold Normal cleanElements
  rw [List.reverse_reverse]
  exact normalStack_foldl _ [] ⟨0, [], rfl, by simp, fun _ => rfl⟩ (elements_no_sep p)

theorem elements_cons_sep (p : List Char) : elements (Separator :: p) = [] :: elements p := by
  simp [elements, List.splitOn]

theorem elements_ne_nil (p : List Char) : elements p ≠ [] :=
  List.splitOnP_ne_nil _ _

theorem elements_append_sep (p q : List Char) :
    elements (p ++ Separator :: q) = elements p ++ elements q := by
  induction p with
  | nil => simp [elements_cons_sep]; simp [elements]
  | cons c p ih =>
    unfold elements List.splitOn at ih ⊢
    rw [List.cons_append, List.splitOnP_cons, List.splitOnP_cons, ih]
    split_ifs with hc
    · rfl
    · have hne := List.splitOnP_ne_nil (· == Separator) p
      cases hsp : List.splitOnP (· == Separator) p with
      | nil => exact absurd hsp hne
      | cons hd tl => rfl

theorem elements_of_no_sep {n : List Char} (h : Separator ∉ n) : elements n = [n] := by
  unfold elements List.splitOn
  apply List.splitOnP_eq_single
  intro x hx hx2
  have : x = Separator := by simpa using hx2
  exact h (this ▸ hx)

theorem elements_intercalate {es : List (List Char)} (hne : es ≠ [])
    (h : ∀ e ∈ es, Separator ∉ e) : elements ([Separator].intercalate es) = es :=
  List.splitOn_intercalate es Separator h hne

theorem Normal.no_sep {r : Bool} {es : List (List Char)} (h : Normal r es) :
    ∀ e ∈ es, Separator ∉ e := by
  obtain ⟨k, names, hs, hn, _⟩ := h
  intro e he
  have : e ∈ names ++ List.replicate k ['.', '.'] := by rw [← hs]; simpa using he
  rcases List.mem_append.1 this with h1 | h1
  · exact (hn e h1).2.2.2
  · rw [(List.mem_replicate.1 h1).2]; decide

theorem Normal.head_not_sep {r : Bool} {es : List (List Char)} (h : Normal r es) :
    ∀ e ∈ es, ∃ c cs, e = c :: cs ∧ c ≠ Separator := by
  obtain ⟨k, names, hs, hn, _⟩ := h
  intro e he
  have : e ∈ names ++ List.replicate k ['.', '.'] := by rw [← hs]; simpa using he
  rcases List.mem_append.1 this with h1 | h1
  · obtain ⟨h2, _, _, h5⟩ := hn e h1
    cases e with
    | nil => exact absurd rfl h2
    | cons c cs => exact ⟨c, cs, rfl, fun hc => h5 (by simp [hc])⟩
  · rw [(List.mem_replicate.1 h1).2]; exact ⟨'.', ['.'], rfl, by decide⟩

theorem intercalate_cons_cons (e : List Char) (e2 : List Char) (es : List (List Char)) :
    [Separator].intercalate (e :: e2 :: es) =
      e ++ Separator :: [Separator].intercalate (e2 :: es) := by
  simp [List.intercalate, List.intersperse]

theorem intercalate_single (e : List Char) : [Separator].intercalate [e] = e := by
  simp [List.intercalate]

theorem rooted_intercalate {r : Bool} {es : List (List Char)} (h : Normal r es) (hne : es ≠ []) :
    rooted ([Separator].intercalate es) = false := by
  cases es with
  | nil => exact absurd rfl hne
  | cons e rest =>
    obtain ⟨c, cs, rfl, hc⟩ := h.head_not_sep e (List.mem_cons_self _ _)
    cases rest with
    | nil => simp [intercalate_single, rooted, hc]
    | cons e2 rest => simp [intercalate_cons_cons, rooted, hc]

theorem rooted_render {r : Bool} {es : List (List Char)} (h : Normal r es) :
    rooted (render r es) = r := by
  unfold render
  cases r with
  | true => simp [rooted]
  | false =>
    by_cases hne : es = []
    · simp [hne, rooted, Separator]
    · simp [hne, rooted_intercalate h hne]

theorem cleanElements_render {r : Bool} {es : List (List Char)} (h : Normal r es) :
    cleanElements (render r es) = es := by
  unfold cleanElements
  rw [rooted_render h]
  have hfold := foldl_cleanStep_normal h
  cases r with
  | true =>
    simp only [render, if_true, elements_cons_sep, List.foldl_cons]
    by_cases hne : es = []
    · subst hne; simp [List.intercalate, elements, cleanStep]
    · rw [elements_intercalate hne h.no_sep]
      have : cleanStep true [] [] = [] := by simp [cleanStep]
      rw [this, hfold]; simp
  | false =>
    by_cases hne : es = []
    · subst hne; simp [render, elements, List.splitOn, cleanStep, Separator]
    · simp only [render, hne, if_false, Bool.false_eq_true]
      rw [elements_intercalate hne h.no_sep, hfold]; simp

theorem cleanChars_render {r : Bool} {es : List (List Char)} (h : Normal r es) :
    cleanChars (render r es) = render r es := by
  unfold cleanChars
  rw [rooted_render h, cleanElements_render h]

theorem cleanChars_idem (p : List Char) : cleanChars (cleanChars p) = cleanChars p :=
  cleanChars_render (normal_cleanElements p)

theorem cleanElements_cleanChars (p : List Char) :
    cleanElements (cleanChars p) = cleanElements p :=
  cleanElements_render (normal_cleanElements p)

theorem rooted_cleanChars (p : List Char) : rooted (cleanChars p) = rooted p :=
  rooted_render (normal_cleanElements p)

theorem Normal.append_name {r : Bool} {es : List (List Char)} (h : Normal r es)
    {n : List Char} (hn : IsName n) : Normal r (es ++ [n]) := by
  obtain ⟨k, names, hs, hns, hk⟩ := h
  refine ⟨k, n :: names, by simp [hs], ?_, hk⟩
  intro x hx
  rcases List.mem_cons.1 hx with rfl | hx
  · exact hn
  · exact hns x hx

theorem cleanElements_append_name {p n : List Char} (hp : p ≠ []) (hn : IsName n) :
    cleanElements (p ++ Separator :: n) = cleanElements p ++ [n] := by
  unfold cleanElements
  have hr : rooted (p ++ Separator :: n) = rooted p := by
    cases p with
    | nil => exact absurd rfl hp
    | cons c p => rfl
  rw [hr, elements_append_sep, elements_of_no_sep hn.2.2.2, List.foldl_append]
  simp [cleanStep_name _ _ hn]

end filepath

namespace filepath

theorem intercalate_append_single {es : List (List Char)} (hne : es ≠ []) (n : List Char) :
    [Separator].intercalate (es ++ [n]) = [Separator].intercalate es ++ Separator :: n := by
  induction es with
  | nil => exact absurd rfl hne
  | cons e rest ih =>
    cases rest with
    | nil => simp [intercalate_cons_cons, intercalate_single]
    | cons e2 rest =>
      rw [List.cons_append, List.cons_append, intercalate_cons_cons, intercalate_cons_cons]
      rw [← List.cons_append, ih (by simp)]
      simp

theorem Normal.ne_dot {r : Bool} {es : List (List Char)} (h : Normal r es) :
    ∀ e ∈ es, e ≠ ['.'] := by
  obtain ⟨k, names, hs, hn, _⟩ := h
  intro e he
  have : e ∈ names ++ List.replicate k ['.', '.'] := by rw [← hs]; simpa using he
  rcases List.mem_append.1 this with h1 | h1
  · exact (hn e h1).2.1
  · rw [(List.mem_replicate.1 h1).2]; decide

theorem Normal.append_names {r : Bool} {es : List (List Char)} (h : Normal r es) :
    ∀ ns : List (List Char), (∀ n ∈ ns, IsName n) → Normal r (es ++ ns) := by
  intro ns
  induction ns using List.reverseRecOn with
  | nil => intro _; simpa using h
  | append_singleton ns n ih =>
    intro hn
    rw [← List.append_assoc]
    exact (ih (fun x hx => hn x (List.mem_append_left _ hx))).append_name
      (hn n (by simp))

theorem normal_nil (r : Bool) : Normal r [] := ⟨0, [], rfl, by simp, fun _ => rfl⟩

theorem intercalate_ne_nil {r : Bool} {es : List (List Char)} (h : Normal r es) (hne : es ≠ []) :
    [Separator].intercalate es ≠ [] := by
  cases es with
  | nil => exact absurd rfl hne
  | cons e rest =>
    obtain ⟨c, cs, rfl, _⟩ := h.head_not_sep e (List.mem_cons_self _ _)
    cases rest with
    | nil => simp [intercalate_single]
    | cons e2 rest => simp [intercalate_cons_cons]

theorem render_ne_nil {r : Bool} {es : List (List Char)} (h : Normal r es) : render r es ≠ [] := by
  unfold render
  cases r with
  | true => simp
  | false =>
    by_cases hne : es = []
    · simp [hne]
    · simpa [hne] using intercalate_ne_nil h hne

theorem dropCommon_append (l m : List (List Char)) : dropCommon l (l ++ m) = ([], m) := by
  induction l with
  | nil => cases m <;> rfl
  | cons e l ih => simp [dropCommon, ih]

theorem relElements_render {r : Bool} {es : List (List Char)} (h : Normal r es) (hne : es ≠ []) :
    relElements (render r es) = (if r then [[]] else []) ++ es := by
  have h0 := intercalate_ne_nil h hne
  unfold relElements
  rw [if_neg (render_ne_nil h)]
  cases r with
  | true =>
    have : render true es ≠ [Separator] := by simpa [render] using h0
    rw [if_neg this]
    simp [render, elements_cons_sep, elements_intercalate hne h.no_sep]
  | false =>
    have : render false es ≠ [Separator] := by
      intro hc
      have := rooted_render h
      rw [hc] at this
      simp [rooted] at this
    rw [if_neg this]
    simp [render, hne, elements_intercalate hne h.no_sep]

theorem relElements_render_base {r : Bool} {es : List (List Char)} (h : Normal r es) :
    relElements (if render r es = ['.'] then [] else render r es) =
      (if r then [[]] else []) ++ es := by
  by_cases hne : es = []
  · subst hne
    cases r <;> simp [render, relElements, Separator, List.intercalate]
  · have : render r es ≠ ['.'] := by
      intro hc
      have h1 := cleanElements_render h
      rw [hc] at h1
      have : cleanElements ['.'] = [] := by decide
      rw [this] at h1
      exact hne h1.symm
    rw [if_neg this]
    exact relElements_render h hne

theorem rooted_render_base {r : Bool} {es : List (List Char)} (h : Normal r es) :
    rooted (if render r es = ['.'] then [] else render r es) = r := by
  split_ifs with hc
  · have := rooted_render h
    rw [hc] at this
    rw [← this]; decide
  · exact rooted_render h

theorem Clean_mk_render {r : Bool} {es : List (List Char)} (h : Normal r es) :
    Clean (String.mk (render r es)) = String.mk (render r es) := by
  unfold Clean
  exact congrArg String.mk (cleanChars_render h)

/-- `Rel` from a cleaned path to a path some names below it gives those names. -/
theorem Rel_descendant {r : Bool} {es ns : List (List Char)} (h : Normal r es)
    (hns : ∀ n ∈ ns, IsName n) (hne : ns ≠ []) :
    Rel (String.mk (render r es)) (String.mk (render r (es ++ ns))) =
      .ok (String.mk ([Separator].intercalate ns)) := by
  have h2 := h.append_names ns hns
  have hne2 : es ++ ns ≠ [] := by simp [hne]
  have hdiff : render r (es ++ ns) ≠ render r es := by
    intro hc
    have h1 := cleanElements_render h2
    rw [hc, cleanElements_render h] at h1
    have := congrArg List.length h1
    simp at this
    exact hne this
  unfold Rel
  simp only [Clean_mk_render h, Clean_mk_render h2, String.toList, if_neg hdiff]
  rw [rooted_render_base h, rooted_render_base h2, relElements_render_base h,
    relElements_render_base h2, ← List.append_assoc, dropCommon_append]
  simp

theorem Rel_self (p : String) : Rel p p = .ok "." := by
  simp [Rel]

theorem Join_render_name {r : Bool} {es : List (List Char)} (h : Normal r es) {n : String}
    (hn : IsName n.toList) :
    Join (String.mk (render r es)) n = String.mk (render r (es ++ [n.toList])) := by
  have hne : String.mk (render r es) ≠ "" := by
    intro hc
    exact render_ne_nil h (congrArg String.toList hc)
  unfold Join
  rw [if_pos hne]
  unfold Clean cleanChars
  have hl : (String.mk (render r es) ++ "/" ++ n).toList = render r es ++ Separator :: n.toList := by
    simp [String.toList, String.data_append, Separator]
  rw [hl, cleanElements_append_name (render_ne_nil h) hn, cleanElements_render h]
  have hr : rooted (render r es ++ Separator :: n.toList) = rooted (render r es) := by
    have := render_ne_nil h
    cases hrd : render r es with
    | nil => exact absurd hrd this
    | cons c p => rfl
  rw [hr, rooted_render h]

end filepath

/-! ### The archive of a folder -/

open filepath

theorem relName_no_trailing_slash (rel : List String) (h : ∀ n ∈ rel, IsName n.toList) :
    strings.HasSuffix (relName rel) "/" = false := by
  unfold relName strings.HasSuffix
  by_cases hne : rel = []
  · subst hne; decide
  · rw [if_neg hne]
    obtain ⟨init, last, rfl⟩ : ∃ init last, rel = init ++ [last] := by
      rcases List.eq_nil_or_concat rel with h1 | ⟨i, l, h1⟩
      · exact absurd h1 hne
      · exact ⟨i, l, by simpa using h1⟩
    have hl : IsName last.toList := h last (by simp)
    have hrev : ∃ c cs, last.toList.reverse = c :: cs ∧ c ≠ '/' := by
      cases hlr : last.toList.reverse with
      | nil => exact absurd (List.reverse_eq_nil_iff.1 hlr) hl.1
      | cons c cs =>
        refine ⟨c, cs, rfl, fun hc => hl.2.2.2 ?_⟩
        have : c ∈ last.toList.reverse := by rw [hlr]; simp
        rw [hc] at this
        simpa [Separator] using this
    obtain ⟨c, cs, hcs, hc⟩ := hrev
    have hsep : (['/'] : List Char) = [Separator] := rfl
    by_cases hi : init = []
    · subst hi
      simp only [List.nil_append, List.map_cons, List.map_nil, hsep, intercalate_single]
      simp [String.toList] at hcs ⊢
      rw [hcs]
      simp [List.isPrefixOf, hc.symm]
    · rw [List.map_append, List.map_cons, List.map_nil, hsep,
        intercalate_append_single (by simpa using hi)]
      simp [String.toList] at hcs ⊢
      rw [hcs]
      simp [List.isPrefixOf, hc.symm]

theorem suffix_slash (s : String) : strings.HasSuffix (s ++ "/") "/" = true := by
  simp [strings.HasSuffix, String.toList, String.data_append, List.isPrefixOf]

theorem Rel_below {r : Bool} {es : List (List Char)} (h : Normal r es) (rel : List String)
    (hrel : ∀ n ∈ rel, IsName n.toList) :
    Rel (String.mk (render r es)) (below r es rel) = .ok (relName rel) := by
  unfold below relName
  by_cases hne : rel = []
  · subst hne; simp [Rel_self]
  · rw [if_neg hne]
    exact Rel_descendant h (by simpa using hrel) (by simpa using hne)

theorem Join_below {r : Bool} {es : List (List Char)} (h : Normal r es) (rel : List String)
    (hrel : ∀ n ∈ rel, IsName n.toList) {n : String} (hn : IsName n.toList) :
    Join (below r es rel) n = below r es (rel ++ [n]) := by
  unfold below
  rw [Join_render_name (h.append_names _ (by simpa using hrel)) hn]
  simp

/-- With a sink that takes everything, `CreateHeader` enters the entry, empty,
and leaves it open exactly when it is a file entry. -/
theorem CreateHeader_quiet (zw : zip.Writer) {sink : Nat → Option String}
    (hs : ∀ k, sink k = none) (h : zip.FileHeader) :
    (zw.CreateHeader sink h).2 = none ∧
    (zw.CreateHeader sink h).1.entries = zw.entries ++
      [{ name := h.Name,
         method := if strings.HasSuffix h.Name "/" then .Store else h.Method,
         content := "" }] := by
  unfold zip.Writer.CreateHeader zip.Writer.closeLast
  cases zw.lastOpen <;> simp [hs]

/-- With a sink that takes everything, writing to the entry entered last by
`CreateHeader` gives that entry the content. -/
theorem write_quiet (zw : zip.Writer) {sink : Nat → Option String}
    (hs : ∀ k, sink k = none) (before : List zip.Entry) (e : zip.Entry)
    (he : zw.entries = before ++ [e]) (hc : e.content = "") (c : String) :
    (zw.write sink c).2 = none ∧
    (zw.write sink c).1.entries = before ++ [{ e with content := c }] := by
  unfold zip.Writer.write
  by_cases h0 : c = ""
  · subst h0
    rw [if_pos rfl, he]
    refine ⟨rfl, ?_⟩
    cases e
    simp only at hc
    subst hc
    rfl
  · rw [if_neg h0]
    simp [hs, he, hc]

theorem zipWalkFn_below {faults : Faults} (hq : faults.quiet) {r : Bool}
    {es : List (List Char)} (h : Normal r es) (rel : List String)
    (hrel : ∀ n ∈ rel, IsName n.toList) (info : Node) (zw : zip.Writer) :
    (zipWalkFn faults (String.mk (render r es)) (below r es rel) (.ok info) zw).2 = none ∧
    (zipWalkFn faults (String.mk (render r es)) (below r es rel) (.ok info) zw).1.entries =
      zw.entries ++ [entryFor (rel, info)] := by
  obtain ⟨_, _, q3, q4, q5, q6⟩ := hq
  unfold zipWalkFn
  simp only [Rel_below h rel hrel, q3, q4, q5]
  cases info with
  | file c =>
    simp only [Node.IsDir, headerName, entryFor, Bool.false_eq_true, if_false]
    obtain ⟨h1, h2⟩ := CreateHeader_quiet zw q6
      { (zip.FileInfoHeader (Base (below r es rel)) (.file c)) with
        Name := relName rel, Method := .Deflate }
    rcases hcr : zw.CreateHeader faults.sinkErr
      { (zip.FileInfoHeader (Base (below r es rel)) (.file c)) with
        Name := relName rel, Method := .Deflate } with ⟨zw1, _ | e⟩
    · rw [hcr] at h2
      simp only [relName_no_trailing_slash rel hrel, Bool.false_eq_true, if_false] at h2
      exact write_quiet zw1 q6 _ _ h2 rfl c
    · rw [hcr] at h1; simp at h1
  | dir cs =>
    simp only [Node.IsDir, headerName, entryFor, if_true]
    obtain ⟨h1, h2⟩ := CreateHeader_quiet zw q6
      { (zip.FileInfoHeader (Base (below r es rel)) (.dir cs)) with
        Name := relName rel ++ Separator.toString }
    rcases hcr : zw.CreateHeader faults.sinkErr
      { (zip.FileInfoHeader (Base (below r es rel)) (.dir cs)) with
        Name := relName rel ++ Separator.toString } with ⟨zw1, _ | e⟩
    · rw [hcr] at h2
      refine ⟨rfl, ?_⟩
      have hs : strings.HasSuffix (relName rel ++ Separator.toString) "/" = true :=
        suffix_slash (relName rel)
      simp only [hs, if_true] at h2
      exact h2
    · rw [hcr] at h1; simp at h1

open filepath

mutual
theorem walk_zip {faults : Faults} (hq : faults.quiet) {r : Bool} {es : List (List Char)}
    (h : Normal r es) (info : Node)
    (rel : List String) (hrel : ∀ n ∈ rel, IsName n.toList) (hok : namesOk info = true)
    (zw : zip.Writer) :
    (walk faults (zipWalkFn faults (String.mk (render r es))) (below r es rel) info zw).2 =
      none ∧
    (walk faults (zipWalkFn faults (String.mk (render r es))) (below r es rel) info
        zw).1.entries =
      zw.entries ++ (visited rel info).map entryFor := by
  match info with
  | .file c =>
    rw [walk, visited]
    exact zipWalkFn_below hq h rel hrel (.file c) zw
  | .dir cs =>
    rw [walk, hq.2.1]
    dsimp only
    obtain ⟨h1, h2⟩ := zipWalkFn_below hq h rel hrel (.dir cs) zw
    rcases hz : zipWalkFn faults (String.mk (render r es)) (below r es rel) (.ok (.dir cs)) zw
      with ⟨zw1, _ | e⟩
    · rw [hz] at h2
      dsimp only at h2 ⊢
      rw [namesOk] at hok
      obtain ⟨h3, h4⟩ := walkNames_zip hq h cs rel hrel hok zw1
      refine ⟨h3, ?_⟩
      rw [h4, h2, visited]
      simp
    · rw [hz] at h1; simp at h1
theorem walkNames_zip {faults : Faults} (hq : faults.quiet) {r : Bool}
    {es : List (List Char)} (h : Normal r es)
    (cs : List (String × Node)) (rel : List String) (hrel : ∀ n ∈ rel, IsName n.toList)
    (hok : childrenOk cs = true) (zw : zip.Writer) :
    (walkNames faults (zipWalkFn faults (String.mk (render r es))) (below r es rel) cs
        zw).2 = none ∧
    (walkNames faults (zipWalkFn faults (String.mk (render r es))) (below r es rel) cs
        zw).1.entries =
      zw.entries ++ (visitedChildren rel cs).map entryFor := by
  match cs with
  | [] => rw [walkNames, visitedChildren]; simp
  | (name, c) :: rest =>
    rw [childrenOk] at hok
    simp only [Bool.and_eq_true, decide_eq_true_eq] at hok
    obtain ⟨⟨hn, hc⟩, hrest⟩ := hok
    have hrel2 : ∀ n ∈ rel ++ [name], IsName n.toList := by
      intro n hmem
      rcases List.mem_append.1 hmem with h1 | h1
      · exact hrel n h1
      · rw [List.mem_singleton.1 h1]; exact hn
    rw [walkNames, hq.1, Join_below h rel hrel hn]
    dsimp only
    obtain ⟨h1, h2⟩ := walk_zip hq h c (rel ++ [name]) hrel2 hc zw
    rcases hz : walk faults (zipWalkFn faults (String.mk (render r es)))
      (below r es (rel ++ [name])) c zw with ⟨zw1, _ | e⟩
    · rw [hz] at h2
      dsimp only at h2 ⊢
      obtain ⟨h3, h4⟩ := walkNames_zip hq h rest rel hrel hrest zw1
      refine ⟨h3, ?_⟩
      rw [h4, h2, visitedChildren]
      simp
    · rw [hz] at h1; simp at h1
end

mutual
theorem visited_length (rel : List String) (n : Node) :
    (visited rel n).length = countNodes n := by
  match n with
  | .file c => simp [visited, countNodes]
  | .dir cs => simp [visited, countNodes, visitedChildren_length rel cs]; omega
theorem visitedChildren_length (rel : List String) (cs : List (String × Node)) :
    (visitedChildren rel cs).length = countChildren cs := by
  match cs with
  | [] => simp [visitedChildren, countChildren]
  | (name, c) :: rest =>
    simp [visitedChildren, countChildren, visited_length (rel ++ [name]) c,
      visitedChildren_length rel rest]
end

mutual
theorem visited_names (rel : List String) (n : Node) (hrel : ∀ x ∈ rel, IsName x.toList)
    (hok : namesOk n = true) : ∀ v ∈ visited rel n, ∀ x ∈ v.1, IsName x.toList := by
  match n with
  | .file c =>
    intro v hv
    simp only [visited, List.mem_singleton] at hv
    subst hv; exact hrel
  | .dir cs =>
    intro v hv
    rw [namesOk] at hok
    simp only [visited, List.mem_cons] at hv
    rcases hv with rfl | hv
    · exact hrel
    · exact visitedChildren_names rel cs hrel hok v hv
theorem visitedChildren_names (rel : List String) (cs : List (String × Node))
    (hrel : ∀ x ∈ rel, IsName x.toList) (hok : childrenOk cs = true) :
    ∀ v ∈ visitedChildren rel cs, ∀ x ∈ v.1, IsName x.toList := by
  match cs with
  | [] => intro v hv; simp [visitedChildren] at hv
  | (name, c) :: rest =>
    rw [childrenOk] at hok
    simp only [Bool.and_eq_true, decide_eq_true_eq] at hok
    obtain ⟨⟨hn, hc⟩, hrest⟩ := hok
    have hrel2 : ∀ n ∈ rel ++ [name], IsName n.toList := by
      intro n hmem
      rcases List.mem_append.1 hmem with h1 | h1
      · exact hrel n h1
      · rw [List.mem_singleton.1 h1]; exact hn
    intro v hv
    simp only [visitedChildren, List.mem_append] at hv
    rcases hv with hv | hv
    · exact visited_names (rel ++ [name]) c hrel2 hc v hv
    · exact visitedChildren_names rel rest hrel hrest v hv
end

theorem Clean_ne_empty (p : String) : Clean p ≠ "" := by
  intro hc
  exact render_ne_nil (normal_cleanElements p.toList) (congrArg String.toList hc)

theorem Join_eq_render {a : String} (ha : a ≠ "") (b : String) :
    ∃ r es, Normal r es ∧ Join a b = String.mk (render r es) := by
  unfold Join
  rw [if_pos ha]
  exact ⟨_, _, normal_cleanElements _, rfl⟩

theorem noFaults_quiet : noFaults.quiet :=
  ⟨fun _ => rfl, fun _ => rfl, fun _ => rfl, fun _ => rfl, fun _ => rfl, fun _ => rfl⟩

/-- The writer and message the folder branch ends with, from the writer and
error the walk ends with. -/
theorem downloadFolder_eq (getwd : Option String) (fs : Node) (faults : Faults)
    (filePath name : String) :
    downloadFolder getwd fs faults filePath name =
      match Walk getwd fs faults filePath (zipWalkFn faults filePath) zip.NewWriter with
      | (zw, some e) =>
        .archive (name ++ ".zip") (zw.Close faults.sinkErr faults.directoryErr).1
          (some ("Error creating ZIP file: " ++ e))
      | (zw, none) =>
        .archive (name ++ ".zip")
          ((zw.Close faults.sinkErr faults.directoryErr).1.Close faults.sinkErr
            faults.directoryErr).1
          ((zw.Close faults.sinkErr faults.directoryErr).2.map
            (fun e => "Error finalizing ZIP file: " ++ e)) := by
  unfold downloadFolder
  dsimp only
  rcases Walk getwd fs faults filePath (zipWalkFn faults filePath) zip.NewWriter
    with ⟨zw, _ | e⟩
  · dsimp only
    rcases zw.Close faults.sinkErr faults.directoryErr with ⟨zw1, _ | e1⟩ <;> rfl
  · rfl

theorem Close_entries (zw : zip.Writer) (sink : Nat → Option String)
    (directoryErr : Option String) :
    (zw.Close sink directoryErr).1.entries = zw.entries := by
  unfold zip.Writer.Close zip.Writer.closeLast zip.Writer.finish
  cases hl : zw.lastOpen <;> cases hs : sink zw.sinkUses <;> cases hc : zw.closed <;>
    cases directoryErr <;> simp [hl, hs, hc]

theorem Close_quiet (zw : zip.Writer) {sink : Nat → Option String}
    (hs : ∀ k, sink k = none) (directoryErr : Option String) (hc : zw.closed = false) :
    (zw.Close sink directoryErr).2 = directoryErr := by
  unfold zip.Writer.Close zip.Writer.closeLast zip.Writer.finish
  cases zw.lastOpen <;> cases directoryErr <;> simp [hs, hc]

/-- The archive `downloadFile` streams for a folder whose names are file names,
when reading the tree and writing the entries meet no fault: one entry per
visited node, in walk order. -/
theorem downloadFile_archive (getwd : Option String) (fs : Node) (faults : Faults)
    (hq : faults.quiet)
    (currentPath name : String) (cs : List (String × Node))
    (hname : name ≠ "") (hpath : currentPath ≠ "")
    (hsafe : isPathSafe getwd fs (Clean currentPath) = true)
    (hparent : isPathSafeParent getwd (Join (Clean currentPath) (Clean name))
      (Clean currentPath) = true)
    (hstat : os.Stat getwd fs (Join (Clean currentPath) (Clean name)) = .ok (.dir cs))
    (hok : namesOk (.dir cs) = true) :
    ∃ zw, downloadFile getwd fs faults currentPath name =
        .archive (name ++ ".zip") zw
          (faults.directoryErr.map (fun e => "Error finalizing ZIP file: " ++ e)) ∧
      zw.entries = (visited [] (.dir cs)).map entryFor := by
  have hne : ¬(name = "" ∨ currentPath = "") := by simp [hname, hpath]
  obtain ⟨r, es, hnorm, hjoin⟩ := Join_eq_render (Clean_ne_empty currentPath) (Clean name)
  obtain ⟨hw1, hw2⟩ := walk_zip hq hnorm (.dir cs) [] (by simp) hok zip.NewWriter
  have hb : below r es [] = String.mk (render r es) := by simp [below]
  rw [hb] at hw1 hw2
  have hu := Walk_zip_untouched getwd fs faults (String.mk (render r es))
  have hW : Walk getwd fs faults (String.mk (render r es))
      (zipWalkFn faults (String.mk (render r es))) zip.NewWriter =
      walk faults (zipWalkFn faults (String.mk (render r es))) (String.mk (render r es))
        (.dir cs) zip.NewWriter := by
    rw [hjoin] at hstat
    simp only [Walk, hq.1, hstat]
  simp only [downloadFile, hne, hsafe, hparent, hstat, if_false, Bool.not_true,
    Bool.false_eq_true, downloadFolder_eq]
  rw [hjoin, hW]
  rw [hW] at hu
  rcases hwk : walk faults (zipWalkFn faults (String.mk (render r es)))
    (String.mk (render r es)) (.dir cs) zip.NewWriter with ⟨zw, _ | e⟩
  · rw [hwk] at hw2 hu
    dsimp only at hw2 hu ⊢
    refine ⟨((zw.Close faults.sinkErr faults.directoryErr).1.Close faults.sinkErr
      faults.directoryErr).1, ?_, ?_⟩
    · rw [Close_quiet zw hq.2.2.2.2.2 faults.directoryErr hu.1]
    · rw [Close_entries, Close_entries, hw2]
      simp [zip.NewWriter]
  · rw [hwk] at hw1; simp at hw1

/-! ### Default folder names -/

theorem IsAbs_eq_rooted (p : String) : IsAbs p = rooted p.toList := by
  unfold IsAbs strings.HasPrefix rooted
  cases h : p.toList with
  | nil => rfl
  | cons c cs =>
    simp [String.toList, List.isPrefixOf, Separator]
    exact eq_comm

theorem foldl_elements_render_false {es : List (List Char)} (h : Normal false es) (r0 : Bool)
    (stk : List (List Char)) :
    (elements (render false es)).foldl (cleanStep r0) stk = es.foldl (cleanStep r0) stk := by
  by_cases hne : es = []
  · subst hne; simp [render, elements, List.splitOn, cleanStep, Separator]
  · simp only [render, hne, if_false, Bool.false_eq_true]
    rw [elements_intercalate hne h.no_sep]

theorem cleanElements_wd_append_name {w : List Char} (hw : w ≠ []) {es : List (List Char)}
    (h : Normal false es) {n : List Char} (hn : IsName n) :
    cleanElements (w ++ Separator :: render false (es ++ [n])) =
      cleanElements (w ++ Separator :: render false es) ++ [n] := by
  have hr : ∀ q, rooted (w ++ Separator :: q) = rooted w := by
    intro q
    cases w with
    | nil => exact absurd rfl hw
    | cons c w => rfl
  unfold cleanElements
  rw [hr, hr, elements_append_sep, elements_append_sep, List.foldl_append, List.foldl_append,
    foldl_elements_render_false (h.append_name hn), foldl_elements_render_false h,
    List.foldl_append]
  simp [cleanStep_name _ _ hn]

theorem mk_toList (s : String) : String.mk s.toList = s := rfl

/-- The absolute form of a cleaned path and of the path one name below it:
with an absolute working directory both are rooted, and the second has one
more element. -/
theorem Abs_child {getwd : Option String} (hwd : ∀ wd, getwd = some wd → IsAbs wd = true)
    (raw : String) {a : String} (ha : Abs getwd (Clean raw) = some a) :
    ∃ es, Normal true es ∧ a = String.mk (render true es) ∧
      ∀ n : String, IsName n.toList →
        Abs getwd (Join (Clean raw) n) = some (String.mk (render true (es ++ [n.toList]))) := by
  have hnorm := normal_cleanElements raw.toList
  have hcp : Clean raw = String.mk (render (rooted raw.toList) (cleanElements raw.toList)) := rfl
  generalize cleanElements raw.toList = es0 at hnorm hcp
  generalize rooted raw.toList = r at hnorm hcp
  rw [hcp] at ha ⊢
  cases r with
  | true =>
    refine ⟨es0, hnorm, ?_, ?_⟩
    · have : IsAbs (String.mk (render true es0)) = true := by
        rw [IsAbs_eq_rooted]; exact rooted_render hnorm
      simp only [Abs, this, if_true, Clean_mk_render hnorm] at ha
      exact (Option.some.inj ha).symm
    · intro n hn
      rw [Join_render_name hnorm hn]
      have h2 := hnorm.append_name hn
      have : IsAbs (String.mk (render true (es0 ++ [n.toList]))) = true := by
        rw [IsAbs_eq_rooted]; exact rooted_render h2
      simp only [Abs, this, if_true, Clean_mk_render h2]
  | false =>
    have hrel : IsAbs (String.mk (render false es0)) = false := by
      rw [IsAbs_eq_rooted]; exact rooted_render hnorm
    simp only [Abs, hrel, Bool.false_eq_true, if_false] at ha
    cases hg : getwd with
    | none => simp [hg] at ha
    | some wd =>
      have hwabs := hwd wd hg
      have hwne : wd ≠ "" := by
        intro hc; subst hc; simp [IsAbs, strings.HasPrefix, List.isPrefixOf] at hwabs
      have hwl : wd.toList ≠ [] := fun hc => hwne (by rw [← mk_toList wd, hc])
      have hrw : ∀ q : List Char, rooted (wd.toList ++ Separator :: q) = true := by
        intro q
        rw [IsAbs_eq_rooted] at hwabs
        cases hl : wd.toList with
        | nil => exact absurd hl hwl
        | cons c w => rw [hl] at hwabs; exact hwabs
      have hjoin : ∀ q : List Char, Join wd (String.mk q) =
          String.mk (render true (cleanElements (wd.toList ++ Separator :: q))) := by
        intro q
        unfold Join
        rw [if_pos hwne]
        unfold Clean cleanChars
        have hl : (wd ++ "/" ++ String.mk q).toList = wd.toList ++ Separator :: q := by
          simp [String.toList, String.data_append, Separator]
        rw [hl, hrw]
      rw [hg] at ha
      simp only [hjoin] at ha
      refine ⟨_, ?_, (Option.some.inj ha).symm, ?_⟩
      · have := normal_cleanElements (wd.toList ++ Separator :: render false es0)
        rwa [hrw] at this
      · intro n hn
        rw [Join_render_name hnorm hn]
        have h2 := hnorm.append_name hn
        have hrel2 : IsAbs (String.mk (render false (es0 ++ [n.toList]))) = false := by
          rw [IsAbs_eq_rooted]; exact rooted_render h2
        simp only [Abs, hrel2, Bool.false_eq_true, if_false, hjoin,
          cleanElements_wd_append_name hwl hnorm hn]

theorem pathNames_render {r : Bool} {es : List (List Char)} (h : Normal r es) :
    pathNames (String.mk (render r es)) = es.map String.mk := by
  unfold pathNames
  simp only [String.toList]
  rw [cleanElements_render h]

theorem Abs_rooted_render {es : List (List Char)} (h : Normal true es) (getwd : Option String) :
    Abs getwd (String.mk (render true es)) = some (String.mk (render true es)) := by
  have : IsAbs (String.mk (render true es)) = true := by
    rw [IsAbs_eq_rooted]; exact rooted_render h
  simp only [Abs, this, if_true, Clean_mk_render h]

theorem HasPrefix_render_child {es : List (List Char)} (n : List Char) :
    strings.HasPrefix (String.mk (render true (es ++ [n]))) (String.mk (render true es)) =
      true := by
  unfold strings.HasPrefix
  simp only [String.toList, render, if_true]
  by_cases hne : es = []
  · subst hne; simp [List.intercalate, List.isPrefixOf]
  · rw [intercalate_append_single hne]
    rw [← List.cons_append]
    simp

theorem Clean_name {n : String} (hn : IsName n.toList) : Clean n = n := by
  unfold Clean cleanChars cleanElements
  have hr : rooted n.toList = false := by
    unfold rooted
    cases hl : n.toList with
    | nil => rfl
    | cons c cs =>
      have : c ≠ Separator := fun hc => hn.2.2.2 (by rw [hl, hc]; simp)
      simp [this]
  rw [hr, elements_of_no_sep hn.2.2.2]
  have h1 : [n.toList].foldl (cleanStep false) [] = [n.toList] := by
    rw [List.foldl_cons, List.foldl_nil, cleanStep_name _ _ hn]
  rw [h1]
  have h2 : render false [n.toList].reverse = n.toList := by
    simp [render, intercalate_single]
  rw [h2]
  rfl

theorem digitChar_ne_sep (d : Nat) (hd : d < 10) : Nat.digitChar d ≠ Separator := by
  interval_cases d <;> decide

theorem toDigitsCore_no_sep (fuel : Nat) :
    ∀ (n : Nat) (ds : List Char), Separator ∉ ds → Separator ∉ Nat.toDigitsCore 10 fuel n ds := by
  induction fuel with
  | zero => intro n ds h; simpa [Nat.toDigitsCore] using h
  | succ fuel ih =>
    intro n ds h
    have hcons : Separator ∉ Nat.digitChar (n % 10) :: ds := by
      simp only [List.mem_cons, not_or]
      exact ⟨fun hc => digitChar_ne_sep _ (Nat.mod_lt _ (by decide)) hc.symm, h⟩
    simp only [Nat.toDigitsCore]
    split_ifs
    · exact hcons
    · exact ih _ _ hcons

theorem toString_no_sep (n : Nat) : Separator ∉ (toString n).toList := by
  show Separator ∉ (Nat.repr n).toList
  unfold Nat.repr Nat.toDigits
  exact toDigitsCore_no_sep _ _ _ (by simp)

theorem defaultName_isName (n : Nat) : IsName (defaultName n).toList := by
  cases n with
  | zero => decide
  | succ n =>
    have hl : (defaultName (n + 1)).toList =
        "New Folder (".toList ++ ((toString (n + 1)).toList ++ [')']) := by
      simp [defaultName, numberedName, String.toList, String.data_append]
    rw [hl]
    refine ⟨by simp [String.toList], by simp [String.toList], by simp [String.toList], ?_⟩
    intro hmem
    rcases List.mem_append.1 hmem with h1 | h1
    · revert h1; decide
    · rcases List.mem_append.1 h1 with h2 | h2
      · exact toString_no_sep _ h2
      · revert h2; decide

theorem find_append (d : List String) :
    ∀ (fs : Node) (q : List String),
      fs.find (d ++ q) = match fs.find d with
        | .ok n => n.find q
        | .error e => .error e := by
  induction d with
  | nil => intro fs q; simp [Node.find]
  | cons x d ih =>
    intro fs q
    cases fs with
    | file c => simp [Node.find]
    | dir cs =>
      simp only [List.cons_append, Node.find]
      cases cs.lookup x with
      | none => rfl
      | some c => exact ih c q

theorem find_child {fs : Node} {d : List String} {cs : List (String × Node)}
    (h : fs.find d = .ok (.dir cs)) (x : String) :
    fs.find (d ++ [x]) = match cs.lookup x with
      | none => .error .ENOENT
      | some c => .ok c := by
  rw [find_append, h]
  show (Node.dir cs).find [x] = _
  rw [Node.find]
  cases cs.lookup x with
  | none => rfl
  | some c => cases c <;> rfl

theorem alter_cons_cons (f : Option Node → Except Errno (Option Node))
    (cs : List (String × Node)) (x : String) {p : List String} (hp : p ≠ []) :
    (Node.dir cs).alter f (x :: p) =
      match cs.lookup x with
      | none => .error .ENOENT
      | some c =>
        match c.alter f p with
        | .error e => .error e
        | .ok c1 => .ok (.dir (putChild x c1 cs)) := by
  cases p with
  | nil => exact absurd rfl hp
  | cons y ys => rfl

/-- Putting a new child `x` into the directory at `d` replaces that directory's
listing by the listing with `x` put in. -/
theorem alter_put_child (f : Option Node → Except Errno (Option Node)) (x : String) (n : Node)
    (d : List String) :
    ∀ (fs : Node) (cs : List (String × Node)), fs.find d = .ok (.dir cs) →
      f (cs.lookup x) = .ok (some n) →
      ∃ fs1, fs.alter f (d ++ [x]) = .ok fs1 ∧ fs1.find d = .ok (.dir (putChild x n cs)) := by
  induction d with
  | nil =>
    intro fs cs hf hfx
    simp only [Node.find] at hf
    injection hf with hf
    subst hf
    exact ⟨.dir (putChild x n cs), by simp [Node.alter, hfx], rfl⟩
  | cons y d ih =>
    intro fs cs hf hfx
    cases fs with
    | file c => simp [Node.find] at hf
    | dir ds =>
      simp only [Node.find] at hf
      cases hl : ds.lookup y with
      | none => simp [hl] at hf
      | some c =>
        simp only [hl] at hf
        obtain ⟨c1, hc1, hc1f⟩ := ih c cs hf hfx
        refine ⟨.dir (putChild y c1 ds), ?_, ?_⟩
        · rw [List.cons_append, alter_cons_cons _ _ _ (by simp), hl]
          simp only [hc1]
        · simp only [Node.find, lookup_putChild_self]
          exact hc1f

/-- What the path checks and `os` calls of `createFolder` see for a directory:
`raw` is the path parameter, `d` the place it denotes and `cs` its listing. -/
theorem dir_facts {getwd : Option String} (hwd : ∀ wd, getwd = some wd → IsAbs wd = true)
    {fs : Node} {raw : String} {d : List String} {cs : List (String × Node)}
    (hres : resolve getwd (Clean raw) = some d) (hdir : fs.find d = .ok (.dir cs)) :
    isPathSafe getwd fs (Clean raw) = true ∧
    ∀ n : String, IsName n.toList →
      isPathSafeParent getwd (Join (Clean raw) (Clean n)) (Clean raw) = true ∧
      resolve getwd (Join (Clean raw) (Clean n)) = some (d ++ [n]) ∧
      os.Stat getwd fs (Join (Clean raw) (Clean n)) =
        (match cs.lookup n with
          | none => .error .ENOENT
          | some c => .ok c) := by
  unfold resolve at hres
  cases ha : Abs getwd (Clean raw) with
  | none => simp [ha] at hres
  | some a =>
    rw [ha] at hres
    obtain ⟨es, hnorm, rfl, hchild⟩ := Abs_child hwd raw ha
    have hd : d = es.map String.mk := by
      simp only [Option.map_some', pathNames_render hnorm] at hres
      exact (Option.some.inj hres).symm
    have hne : ∀ {r : Bool} {l : List (List Char)}, Normal r l → String.mk (render r l) ≠ "" :=
      fun h hc => render_ne_nil h (congrArg String.toList hc)
    refine ⟨?_, ?_⟩
    · simp only [isPathSafe, ha, os.Stat, if_neg (hne hnorm), resolve, Abs_rooted_render hnorm,
        Option.map_some', pathNames_render hnorm, ← hd, hdir]
    · intro n hn
      have h2 := hnorm.append_name hn
      have hres2 : resolve getwd (Join (Clean raw) (Clean n)) = some (d ++ [n]) := by
        simp only [resolve, Clean_name hn, hchild n hn, Option.map_some', pathNames_render h2, hd,
          List.map_append, List.map_cons, List.map_nil, mk_toList]
      refine ⟨?_, hres2, ?_⟩
      · simp only [isPathSafeParent, Clean_name hn, hchild n hn, ha, HasPrefix_render_child]
      · have hjne : Join (Clean raw) (Clean n) ≠ "" := by
          obtain ⟨r, l, hl, hj⟩ := Join_eq_render (Clean_ne_empty raw) (Clean n)
          rw [hj]; exact hne hl
        simp only [os.Stat, if_neg hjne, hres2]
        exact find_child hdir n

theorem Mkdir_child {getwd : Option String} {fs : Node} {path n : String} {d : List String}
    {cs : List (String × Node)} (hpath : path ≠ "")
    (hres : resolve getwd path = some (d ++ [n])) (hdir : fs.find d = .ok (.dir cs))
    (hfree : cs.lookup n = none) :
    ∃ fs1, os.Mkdir getwd fs path = .ok fs1 ∧
      fs1.find d = .ok (.dir (putChild n (.dir []) cs)) := by
  obtain ⟨fs1, h1, h2⟩ := alter_put_child
    (fun old => match old with
      | none => .ok (some (.dir []))
      | some _ => .error .EEXIST) n (.dir []) d fs cs hdir (by rw [hfree])
  refine ⟨fs1, ?_, h2⟩
  unfold os.Mkdir
  rw [if_neg hpath, hres]
  cases hd : d ++ [n] with
  | nil => simp at hd
  | cons x p => rw [hd] at h1; simp only [h1]

theorem defaultNameLoop_finds (getwd : Option String) (fs : Node) (cp : String)
    (cs : List (String × Node))
    (hstat : ∀ m, os.Stat getwd fs (Join cp (Clean (defaultName m))) =
      (match cs.lookup (defaultName m) with
        | none => .error .ENOENT
        | some c => .ok c)) :
    ∀ (j k fuel : Nat), (∀ m, k ≤ m → m < k + j → (cs.lookup (defaultName m)).isSome = true) →
      cs.lookup (defaultName (k + j)) = none → j < fuel →
      defaultNameLoop getwd fs cp "New Folder" fuel (k + 1) (defaultName k) =
        some (defaultName (k + j)) := by
  intro j
  induction j with
  | zero =>
    intro k fuel _ hfree hfuel
    obtain ⟨f, rfl⟩ : ∃ f, fuel = f + 1 := ⟨fuel - 1, by omega⟩
    rw [Nat.add_zero] at hfree
    simp only [defaultNameLoop, hstat k, hfree, os.IsNotExist]
    simp
  | succ j ih =>
    intro k fuel hused hfree hfuel
    obtain ⟨f, rfl⟩ : ∃ f, fuel = f + 1 := ⟨fuel - 1, by omega⟩
    have hk := hused k (Nat.le_refl k) (by omega)
    cases hl : cs.lookup (defaultName k) with
    | none => simp [hl] at hk
    | some c =>
      simp only [defaultNameLoop, hstat k, hl]
      have h2 := ih (k + 1) f (fun m h1 h2 => hused m (by omega) (by omega))
        (by rw [show k + 1 + j = k + (j + 1) by omega]; exact hfree) (by omega)
      rw [show k + 1 + j = k + (j + 1) by omega] at h2
      exact h2

/-- `createFolder` without a folder name in a directory whose first unused
default name is the `n`-th: that name is chosen and the folder is made. -/
theorem createFolder_default {getwd : Option String}
    (hwd : ∀ wd, getwd = some wd → IsAbs wd = true)
    {fs : Node} {raw : String} {d : List String} {cs : List (String × Node)}
    (hraw : raw ≠ "") (hres : resolve getwd (Clean raw) = some d)
    (hdir : fs.find d = .ok (.dir cs)) (n fuel : Nat) (hfuel : n < fuel)
    (hused : ∀ m, m < n → (cs.lookup (defaultName m)).isSome = true)
    (hfree : cs.lookup (defaultName n) = none) :
    chooseFolderName getwd fs fuel (Clean raw) "" = some (defaultName n) ∧
    ∃ fs1, createFolder getwd fs fuel "POST" none raw "" =
        some (.redirect (Clean raw) "success"
          ("Folder \x27" ++ defaultName n ++ "\x27 created successfully"), fs1) ∧
      fs1.find d = .ok (.dir (putChild (defaultName n) (.dir []) cs)) := by
  obtain ⟨hsafe, hchild⟩ := dir_facts hwd hres hdir
  have hloop := defaultNameLoop_finds getwd fs (Clean raw) cs
    (fun m => (hchild _ (defaultName_isName m)).2.2) n 0 fuel
    (fun m _ h2 => hused m (by omega)) (by simpa using hfree) hfuel
  have hchoose : chooseFolderName getwd fs fuel (Clean raw) "" = some (defaultName n) := by
    simp only [chooseFolderName, if_true]
    simpa [defaultName] using hloop
  refine ⟨hchoose, ?_⟩
  obtain ⟨hparent, hres2, _⟩ := hchild _ (defaultName_isName n)
  have hjne : Join (Clean raw) (Clean (defaultName n)) ≠ "" := by
    obtain ⟨r, l, hl, hj⟩ := Join_eq_render (Clean_ne_empty raw) (Clean (defaultName n))
    rw [hj]; exact fun hc => render_ne_nil hl (congrArg String.toList hc)
  obtain ⟨fs1, hmk, hfs1⟩ := Mkdir_child hjne hres2 hdir hfree
  refine ⟨fs1, ?_, hfs1⟩
  simp [createFolder, hraw, hsafe, hchoose, hparent, hmk]

theorem digitChar_value (d : Nat) (hd : d < 10) : (Nat.digitChar d).toNat - 48 = d := by
  interval_cases d <;> decide

theorem toDigitsCore_value (fuel : Nat) :
    ∀ (n : Nat) (ds : List Char), n < fuel →
      (Nat.toDigitsCore 10 fuel n ds).foldl (fun a c => 10 * a + (c.toNat - 48)) 0 =
        ds.foldl (fun a c => 10 * a + (c.toNat - 48)) n := by
  induction fuel with
  | zero => intro n ds h; omega
  | succ fuel ih =>
    intro n ds h
    have hd := digitChar_value (n % 10) (Nat.mod_lt _ (by decide))
    simp only [Nat.toDigitsCore]
    split_ifs with h0
    · have hn : n % 10 = n := Nat.mod_eq_of_lt (by omega)
      simp only [List.foldl_cons, hd, Nat.mul_zero, Nat.zero_add]
      rw [hn]
    · rw [ih (n / 10) _ (by omega)]
      simp only [List.foldl_cons, hd]
      congr 1
      omega

theorem toString_injective {a b : Nat} (h : toString a = toString b) : a = b := by
  have h1 : Nat.toDigits 10 a = Nat.toDigits 10 b := by
    have : (Nat.repr a).toList = (Nat.repr b).toList := congrArg String.toList h
    simpa [Nat.repr] using this
  have ha := toDigitsCore_value (a + 1) a [] (by omega)
  have hb := toDigitsCore_value (b + 1) b [] (by omega)
  simp only [List.foldl_nil] at ha hb
  unfold Nat.toDigits at h1
  rw [← ha, ← hb, h1]

theorem defaultName_injective {a b : Nat} (h : defaultName a = defaultName b) : a = b := by
  have hl := congrArg String.toList h
  have hsucc : ∀ n, (defaultName (n + 1)).toList =
      "New Folder (".toList ++ ((toString (n + 1)).toList ++ [')']) := by
    intro n
    simp [defaultName, numberedName, String.toList, String.data_append]
  cases a with
  | zero =>
    cases b with
    | zero => rfl
    | succ b =>
      rw [hsucc] at hl
      have := congrArg List.length hl
      simp [defaultName, String.toList] at this
  | succ a =>
    cases b with
    | zero =>
      rw [hsucc] at hl
      have := congrArg List.length hl
      simp [defaultName, String.toList] at this
    | succ b =>
      rw [hsucc, hsucc] at hl
      have h2 := List.append_cancel_right (List.append_cancel_left hl)
      have h3 : toString (a + 1) = toString (b + 1) := by
        rw [← mk_toList (toString (a + 1)), h2, mk_toList]
      exact toString_injective h3

theorem lookup_isSome_mem {x : String} {cs : List (String × Node)}
    (h : (cs.lookup x).isSome = true) : x ∈ cs.map Prod.fst := by
  induction cs with
  | nil => simp at h
  | cons yc rest ih =>
    obtain ⟨y, c⟩ := yc
    simp only [List.lookup] at h
    cases hxy : x == y with
    | true => simp [eq_of_beq hxy]
    | false =>
      rw [hxy] at h
      simp only [List.map_cons, List.mem_cons]
      exact Or.inr (ih h)

/-- Among the first `cs.length + 1` default names one has no entry in `cs`. -/
theorem exists_free_defaultName (cs : List (String × Node)) :
    ∃ n, n ≤ cs.length ∧ (∀ m, m < n → (cs.lookup (defaultName m)).isSome = true) ∧
      cs.lookup (defaultName n) = none := by
  have hex : ∃ n, n ≤ cs.length ∧ cs.lookup (defaultName n) = none := by
    by_contra hcon
    push_neg at hcon
    have hsub : (Finset.range (cs.length + 1)).image defaultName ⊆ (cs.map Prod.fst).toFinset := by
      intro x hx
      obtain ⟨m, hm, rfl⟩ := Finset.mem_image.1 hx
      have := hcon m (by simpa [Nat.lt_succ_iff] using hm)
      exact List.mem_toFinset.2 (lookup_isSome_mem (Option.isSome_iff_ne_none.2 this))
    have h1 := Finset.card_le_card hsub
    rw [Finset.card_image_of_injective _ (fun a b h => defaultName_injective h),
      Finset.card_range] at h1
    have h2 := List.toFinset_card_le (cs.map Prod.fst)
    simp only [List.length_map] at h2
    omega
  classical
  refine ⟨Nat.find hex, (Nat.find_spec hex).1, ?_, (Nat.find_spec hex).2⟩
  intro m hm
  have hmin := Nat.find_min hex hm
  have hle : m ≤ cs.length := by
    have := (Nat.find_spec hex).1
    omega
  rw [Option.isSome_iff_ne_none]
  exact fun hc => hmin ⟨hle, hc⟩


/-! ### Faults while archiving -/

set_option maxHeartbeats 1000000 in
/-- The walk of `/a/b` aborts when `/a/b/sub/y.txt` cannot be opened: `Close`
is invoked once, by the deferred call, which closes the entry begun and writes
the central directory. -/
theorem download_aborted_by_open_fault :
    downloadFile none exampleFs exampleOpenFault "/a" "b" =
      .archive "b.zip"
        { entries := [{ name := "./", method := .Store, content := "" },
                      { name := "sub/", method := .Store, content := "" },
                      { name := "sub/y.txt", method := .Deflate, content := "" }],
          lastOpen := false, closed := true, sinkUses := 5, closeCalls := 1,
          directoryRecords := 1 }
        (some "Error creating ZIP file: open /a/b/sub/y.txt: permission denied") := by
  decide

set_option maxHeartbeats 1000000 in
/-- The walk of `/a/b` aborts when the client goes away while `sub/y.txt` is
written: the deferred `Close` fails on closing that entry and returns before
the writer is marked closed, so no central directory is written. -/
theorem download_aborted_by_sink_fault :
    downloadFile none exampleFs exampleSinkFault "/a" "b" =
      .archive "b.zip"
        { entries := [{ name := "./", method := .Store, content := "" },
                      { name := "sub/", method := .Store, content := "" },
                      { name := "sub/y.txt", method := .Deflate, content := "" }],
          lastOpen := false, closed := false, sinkUses := 5, closeCalls := 1,
          directoryRecords := 0 }
        (some "Error creating ZIP file: write: broken pipe") := by
  decide
/-! ## Properties -/

/-- C1: the path guard accepts `/a/bc` under the parent `/a/b` although `/a/bc`
is neither `/a/b` nor a descendant of it; the pair is the one `downloadFile`
builds from `path=/a/b` and `file=../bc`. -/
theorem isPathSafeParent_accepts_sibling_sharing_prefix :
    isPathSafeParent none "/a/bc" "/a/b" = true ∧
    withinRoot "/a/b" "/a/bc" = false ∧
    filepath.Join (filepath.Clean "/a/b") (filepath.Clean "../bc") = "/a/bc" := by
  decide

/-- C2: with the root `/a`, the handlers act on `/etc`, which lies outside it:
for `path=/etc`, `file=passwd` both path checks pass, `downloadFile` sends
`/etc/passwd` and `deleteFile` removes it; `createFolder` makes `/etc/x` and
`uploadFile` writes `/etc/f`. -/
theorem downloadFile_serves_path_outside_root :
    isPathSafe none exampleFs (filepath.Clean "/etc") = true ∧
    isPathSafeParent none "/etc/passwd" (filepath.Clean "/etc") = true ∧
    filepath.Join (filepath.Clean "/etc") (filepath.Clean "passwd") = "/etc/passwd" ∧
    withinRoot "/a" "/etc/passwd" = false ∧
    downloadFile none exampleFs noFaults "/etc" "passwd" = .file "passwd" "root:x:0:0" ∧
    (deleteFile none exampleFs "DELETE" "/etc" "passwd").1 = .ok "Deleted successfully" ∧
    (createFolder none exampleFs 1 "POST" none "/etc" "x").map (fun r => r.1) =
      some (.redirect "/etc" "success" "Folder \x27x\x27 created successfully") ∧
    (uploadFile "/a" none exampleFs "POST" none "/etc" (.ok ("f", "data"))).1 =
      .redirect "/etc" "success" "File \x27f\x27 uploaded successfully to /etc" ∧
    (os.Stat none (uploadFile "/a" none exampleFs "POST" none "/etc" (.ok ("f", "data"))).2
      "/etc/f").toOption.map Node.IsDir = some false := by
  decide

/-- C3: for `path=/a/b` and `file=../bc` the joined path `/a/bc` lies outside
`/a/b`, yet `downloadFile` sends the file and `deleteFile` removes it instead
of answering 400. -/
theorem dotdot_escape_to_sibling_not_rejected :
    withinRoot "/a/b" (filepath.Join (filepath.Clean "/a/b") (filepath.Clean "../bc")) = false ∧
    downloadFile none exampleFs noFaults "/a/b" "../bc" = .file "bc" "secret" ∧
    (deleteFile none exampleFs "DELETE" "/a/b" "../bc").1 = .ok "Deleted successfully" ∧
    (os.Stat none (deleteFile none exampleFs "DELETE" "/a/b" "../bc").2 "/a/bc").toOption.isNone := by
  decide

/-- C10: an upload whose file name is `.` into the empty folder `/a/e` passes the
destination check with the destination being `/a/e` itself; the folder is
removed and a regular file takes its place. -/
theorem uploadFile_replaces_upload_directory :
    filepath.Join (filepath.Clean "/a/e") (filepath.Base ".") = "/a/e" ∧
    isPathSafeParent none "/a/e" "/a/e" = true ∧
    (os.Stat none exampleFs "/a/e").toOption.map Node.IsDir = some true ∧
    (uploadFile "/a" none exampleFs "POST" none "/a/e" (.ok (".", "data"))).1 =
      .redirect "/a/e" "success" "File \x27.\x27 uploaded successfully to /a/e" ∧
    (os.Stat none (uploadFile "/a" none exampleFs "POST" none "/a/e" (.ok (".", "data"))).2
      "/a/e").toOption.map Node.IsDir = some false := by
  decide

/-- C4, as stated, fails: the archive of the empty folder `/a/e` has one entry,
named `./`, for the folder itself. -/
theorem empty_folder_archive_has_root_entry :
    (downloadFile none exampleFs noFaults "/a" "e").entries =
      [{ name := "./", method := .Store, content := "" }] ∧
    (downloadFile none exampleFs noFaults "/a" "e").entries ≠ [] := by
  decide

/-- C5, as stated, fails: with the separator of a Windows host the entry of the
folder `sub` is named `sub\` and does not end in a forward slash. -/
theorem folder_entry_ends_in_host_separator :
    headerName windowsSeparator "sub" true = String.mk ['s', 'u', 'b', Char.ofNat 92] ∧
    strings.HasSuffix (headerName windowsSeparator "sub" true) "/" = false := by
  decide

/-- C7, as stated, fails: the target `/nonexistent/x` does not exist, and
`deleteFile` answers 400, not 404, because the directory check fails first. -/
theorem deleteFile_missing_directory_answers_400 :
    (os.Stat none exampleFs
      (filepath.Join (filepath.Clean "/nonexistent") (filepath.Clean "x"))).toOption.isNone ∧
    (deleteFile none exampleFs "DELETE" "/nonexistent" "x").1 =
      .error 400 "Invalid path or access denied" := by
  decide

set_option maxHeartbeats 1000000 in
/-- C9, as stated, fails: when the walk of `/a/b` succeeds, `Close` is invoked
twice, by the explicit call and by the deferred one. -/
theorem successful_archive_invokes_close_twice :
    (downloadFile none exampleFs noFaults "/a" "b").writer.map (fun zw => zw.closeCalls) =
      some 2 := by
  decide

/-- C8: the rows of a listing answer, in order, to the directory entries whose
metadata could be read: a folder row has the size `-`, a file row the size text
made from its byte size, which is never `-`; with all metadata readable a
directory of N files and M folders yields N+M rows. -/
theorem fileList_rows_in_order (files : List DirEntry) :
    List.Forall₂ rowOf (files.filter DirEntry.readable) (fileList files) ∧
    ((∀ f ∈ files, f.readable = true) →
      (fileList files).length =
        files.countP (fun f => !f.IsDir) + files.countP (fun f => f.IsDir) ∧
      (fileList files).map (fun e => e.Name) = files.map (fun f => f.Name)) := by
  refine ⟨listLoop_rows files, fun h => ⟨?_, ?_⟩⟩
  · rw [fileList, listLoop_length files h]
    have := List.length_eq_countP_add_countP (fun f : DirEntry => f.IsDir) files
    simp only [Bool.not_eq_true] at this
    rw [this, Nat.add_comm]
    congr 1
    apply List.countP_congr
    intro f _; simp
  · have hall := listLoop_rows files
    rw [List.filter_eq_self.2 (by simpa using h)] at hall
    unfold fileList
    generalize listLoop files [] = rows at hall
    clear h
    induction hall with
    | nil => rfl
    | cons hab _ ih => simp [hab.1, ih]

/-- C9, amended: on every exit of the folder branch, whatever faults reading
the tree and writing the response meet, `Close` has been invoked - once (the
deferred call) when the walk aborted, twice (the explicit call, then the
deferred one) when the walk succeeded.  The central directory is written in
full at most once: exactly once when an invocation got past the closed flag and
the sink took the directory, and no invocation gets that far exactly when the
walk aborted with a file entry open and closing that entry fails. -/
theorem downloadFolder_close_calls (getwd : Option String) (fs : Node)
    (faults : Faults) (filePath name : String) :
    ∃ zw failure,
      downloadFolder getwd fs faults filePath name = .archive (name ++ ".zip") zw failure ∧
      zw.closeCalls =
        (if (Walk getwd fs faults filePath (zipWalkFn faults filePath) zip.NewWriter).2.isSome
          then 1 else 2) ∧
      zw.directoryRecords ≤ 1 ∧
      (zw.directoryRecords = 1 ↔ (zw.closed = true ∧ faults.directoryErr = none)) ∧
      (zw.closed = false ↔
        ((Walk getwd fs faults filePath (zipWalkFn faults filePath) zip.NewWriter).2.isSome =
            true ∧
          (Walk getwd fs faults filePath (zipWalkFn faults filePath)
            zip.NewWriter).1.lastOpen = true ∧
          (faults.sinkErr (Walk getwd fs faults filePath (zipWalkFn faults filePath)
            zip.NewWriter).1.sinkUses).isSome = true)) := by
  have hu := Walk_zip_untouched getwd fs faults filePath
  rw [downloadFolder_eq]
  rcases hw : Walk getwd fs faults filePath (zipWalkFn faults filePath) zip.NewWriter
    with ⟨zw, _ | e⟩
  · rw [hw] at hu
    obtain ⟨a1, a2, a3⟩ := Close_twice zw faults.sinkErr faults.directoryErr hu
    refine ⟨_, _, rfl, ?_, ?_, ?_, ?_⟩
    · rw [a1]; rfl
    · rw [a3]; split <;> omega
    · rw [a3, a2]
      cases faults.directoryErr <;> simp
    · rw [a2]; simp
  · rw [hw] at hu
    obtain ⟨c1, _, c3, c4⟩ := Close_untouched zw faults.sinkErr faults.directoryErr hu
    refine ⟨_, _, rfl, ?_, ?_, ?_, ?_⟩
    · rw [c1]; rfl
    all_goals
      by_cases hx : zw.lastOpen = true ∧ (faults.sinkErr zw.sinkUses).isSome = true
      · obtain ⟨c5, c6, _⟩ := c3 hx
        simp only [c5, c6]
        simp [hx.1, hx.2]
      · obtain ⟨c5, c6, _⟩ := c4 hx
        simp only [c5, c6]
        cases faults.directoryErr <;> simp <;> simpa using hx

/-- C7, amended: for a DELETE request with non-empty parameters, a failed path
check gives 400 and leaves the filesystem as it was; with both checks passed, a
target that does not exist gives 404 and leaves the filesystem as it was, and a
target that exists is removed unless it is the root or its path ends in `.` or
`..`;
after a successful removal nothing is found at the target or beneath it and
every other place shows what it showed before. -/
theorem deleteFile_outcomes (getwd : Option String) (fs : Node) (currentPath name : String)
    (hname : name ≠ "") (hpath : currentPath ≠ "") :
    ((isPathSafe getwd fs (filepath.Clean currentPath) = false ∨
      isPathSafeParent getwd
        (filepath.Join (filepath.Clean currentPath) (filepath.Clean name))
        (filepath.Clean currentPath) = false) →
      (∃ msg, (deleteFile getwd fs "DELETE" currentPath name).1 = .error 400 msg) ∧
      (deleteFile getwd fs "DELETE" currentPath name).2 = fs) ∧
    (isPathSafe getwd fs (filepath.Clean currentPath) = true →
      isPathSafeParent getwd
        (filepath.Join (filepath.Clean currentPath) (filepath.Clean name))
        (filepath.Clean currentPath) = true →
      (∀ e, os.Stat getwd fs
          (filepath.Join (filepath.Clean currentPath) (filepath.Clean name)) = .error e →
        deleteFile getwd fs "DELETE" currentPath name =
          (.error 404 "File or folder not found", fs)) ∧
      (∀ n, os.Stat getwd fs
          (filepath.Join (filepath.Clean currentPath) (filepath.Clean name)) = .ok n →
        ∃ target,
          resolve getwd (filepath.Join (filepath.Clean currentPath) (filepath.Clean name)) =
            some target ∧
          (target ≠ [] →
            os.endsWithDot
              (filepath.Join (filepath.Clean currentPath) (filepath.Clean name)) = false →
            os.endsWithDotDot
              (filepath.Join (filepath.Clean currentPath) (filepath.Clean name)) = false →
            (deleteFile getwd fs "DELETE" currentPath name).1 = .ok "Deleted successfully") ∧
          ((deleteFile getwd fs "DELETE" currentPath name).1 = .ok "Deleted successfully" →
            ∀ q, (deleteFile getwd fs "DELETE" currentPath name).2.at q =
              if target.isPrefixOf q then .error .ENOENT else fs.at q))) := by
  have hne : ¬(name = "" ∨ currentPath = "") := by simp [hname, hpath]
  refine ⟨?_, ?_⟩
  · rintro (h | h)
    · simp [deleteFile, hne, h]
    · by_cases h1 : isPathSafe getwd fs (filepath.Clean currentPath) = true
      · simp [deleteFile, hne, h, h1]
      · simp [deleteFile, hne, h1]
  · intro h1 h2
    refine ⟨?_, ?_⟩
    · intro e he
      simp [deleteFile, hne, h1, h2, he]
    · intro n hn
      obtain ⟨h0, p, hr, hf⟩ := Stat_ok_resolve hn
      obtain ⟨hA, hB⟩ := RemoveAll_of_found h0 hr hf
      have hd : deleteFile getwd fs "DELETE" currentPath name =
          match os.RemoveAll getwd fs
            (filepath.Join (filepath.Clean currentPath) (filepath.Clean name)) with
          | (some e, fs1) => (.error 500 ("Failed to delete: " ++ e.Error), fs1)
          | (none, fs1) => (.ok "Deleted successfully", fs1) := by
        simp [deleteFile, hne, h1, h2, hn]
      refine ⟨p, hr, ?_, ?_⟩
      · intro hp hdot hdotdot
        obtain ⟨fs1, hfs1⟩ := hB hp hdot hdotdot
        rw [hd, hfs1]
      · rw [hd]
        rcases hra : os.RemoveAll getwd fs
            (filepath.Join (filepath.Clean currentPath) (filepath.Clean name)) with ⟨_ | e, fs1⟩
        · intro _ q
          exact at_after_remove p fs fs1 (hA fs1 hra) q
        · intro hcontra
          simp at hcontra

/-- C7, amended, at `path=/a`, `file=zz`: both checks pass, `/a/zz` does not
exist, the answer is 404 and the filesystem is as before. -/
theorem deleteFile_outcomes_witness :
    "zz" ≠ "" ∧ "/a" ≠ "" ∧
    deleteFile none exampleFs "DELETE" "/a" "zz" =
      (.error 404 "File or folder not found", exampleFs) :=
  ⟨by decide, by decide,
   ((deleteFile_outcomes none exampleFs "/a" "zz" (by decide) (by decide)).2
      (by decide) (by decide)).1 .ENOENT rfl⟩

/-- C8 at a listing of one folder and one file. -/
theorem fileList_rows_in_order_witness :
    (fileList [⟨"docs", true, .ok ⟨4096, "2024-01-01 10:00:00"⟩⟩,
               ⟨"a.txt", false, .ok ⟨1536, "2024-01-02 10:00:00"⟩⟩]).length = 1 + 1 :=
  ((fileList_rows_in_order _).2 (by decide)).1

/-- C4, amended: on a host whose separator is the forward slash, when reading
the tree and writing the entries meet no fault, the archive of a folder whose
names are file names holds one entry per node of the folder's tree, the folder
itself included: first the entry `./` of the folder, then one entry per
descendant, in walk order.  An empty folder gives the single entry `./`; a
folder whose only content is the file `x.txt` with content `hi` gives `./` and
then `x.txt` with content `hi`.  On any host the entry of the folder itself is
named `.` followed by the host separator, which on a Windows host is the
backslash. -/
theorem folder_archive_one_entry_per_node (getwd : Option String) (fs : Node)
    (faults : Faults) (currentPath name : String) (cs : List (String × Node))
    (hquiet : faults.quiet)
    (hname : name ≠ "") (hpath : currentPath ≠ "")
    (hsafe : isPathSafe getwd fs (filepath.Clean currentPath) = true)
    (hparent : isPathSafeParent getwd
      (filepath.Join (filepath.Clean currentPath) (filepath.Clean name))
      (filepath.Clean currentPath) = true)
    (hstat : os.Stat getwd fs
      (filepath.Join (filepath.Clean currentPath) (filepath.Clean name)) = .ok (.dir cs))
    (hok : namesOk (.dir cs) = true) :
    filepath.Separator = '/' ∧
    (downloadFile getwd fs faults currentPath name).entries =
      { name := headerName filepath.Separator "." true, method := .Store, content := "" } ::
        (visitedChildren [] cs).map entryFor ∧
    headerName filepath.Separator "." true = "./" ∧
    (downloadFile getwd fs faults currentPath name).entries.length = 1 + countChildren cs ∧
    (cs = [] → (downloadFile getwd fs faults currentPath name).entries =
      [{ name := "./", method := .Store, content := "" }]) ∧
    (cs = [("x.txt", .file "hi")] →
      (downloadFile getwd fs faults currentPath name).entries =
        [{ name := "./", method := .Store, content := "" },
         { name := "x.txt", method := .Deflate, content := "hi" }]) ∧
    (∀ hostSeparator : Char,
      headerName hostSeparator "." true = "." ++ hostSeparator.toString) ∧
    headerName windowsSeparator "." true = String.mk ['.', Char.ofNat 92] := by
  obtain ⟨zw, hd, hz⟩ :=
    downloadFile_archive getwd fs faults hquiet currentPath name cs hname hpath hsafe hparent
      hstat hok
  have he : (downloadFile getwd fs faults currentPath name).entries =
      { name := "./", method := .Store, content := "" } ::
        (visitedChildren [] cs).map entryFor := by
    rw [hd, Response.entries, hz, visited]
    rfl
  refine ⟨rfl, he, rfl, ?_, ?_, ?_, fun _ => rfl, by decide⟩
  · rw [he, List.length_cons, List.length_map, visitedChildren_length]; omega
  · intro h0; rw [he, h0]; rfl
  · intro h1; rw [he, h1]; rfl

/-- C4, amended, at the folder `/a/b` of the example tree: four entries for the
folder, `sub`, `sub/y.txt` and `x.txt`. -/
theorem folder_archive_one_entry_per_node_witness :
    (downloadFile none exampleFs noFaults "/a" "b").entries.length = 4 :=
  (folder_archive_one_entry_per_node none exampleFs noFaults "/a" "b"
    [("sub", .dir [("y.txt", .file "yo")]), ("x.txt", .file "hi")]
    noFaults_quiet (by decide) (by decide) (by decide) (by decide) rfl (by decide)).2.2.2.1

/-- C5, amended: on a host whose separator is the forward slash, when reading
the tree and writing the entries meet no fault, the entries of the archive of a
folder whose names are file names are named, in walk order, by
the path of the node relative to the folder (`.` for the folder itself) written
with forward slashes, with the separator appended for a folder; the name ends
in a slash exactly for the folders.  On any host the name of a folder entry is
the relative path followed by the host separator. -/
theorem archive_entry_names (getwd : Option String) (fs : Node)
    (faults : Faults) (currentPath name : String) (cs : List (String × Node))
    (hquiet : faults.quiet)
    (hname : name ≠ "") (hpath : currentPath ≠ "")
    (hsafe : isPathSafe getwd fs (filepath.Clean currentPath) = true)
    (hparent : isPathSafeParent getwd
      (filepath.Join (filepath.Clean currentPath) (filepath.Clean name))
      (filepath.Clean currentPath) = true)
    (hstat : os.Stat getwd fs
      (filepath.Join (filepath.Clean currentPath) (filepath.Clean name)) = .ok (.dir cs))
    (hok : namesOk (.dir cs) = true) :
    (downloadFile getwd fs faults currentPath name).entries.map (fun e => e.name) =
      (visited [] (.dir cs)).map
        (fun v => headerName filepath.Separator (relName v.1) v.2.IsDir) ∧
    (∀ v ∈ visited [] (.dir cs),
      strings.HasSuffix (headerName filepath.Separator (relName v.1) v.2.IsDir) "/" =
        v.2.IsDir) ∧
    (∀ (hostSeparator : Char) (rel : String),
      headerName hostSeparator rel true = rel ++ hostSeparator.toString ∧
      headerName hostSeparator rel false = rel) := by
  obtain ⟨zw, hd, hz⟩ :=
    downloadFile_archive getwd fs faults hquiet currentPath name cs hname hpath hsafe hparent
      hstat hok
  refine ⟨?_, ?_, fun _ _ => ⟨rfl, rfl⟩⟩
  · rw [hd, Response.entries, hz, List.map_map]
    apply List.map_congr_left
    rintro ⟨rel, n⟩ _
    cases n <;> rfl
  · rintro ⟨rel, n⟩ hv
    have hnames := visited_names [] (.dir cs) (by simp) hok _ hv
    cases n with
    | file c => exact relName_no_trailing_slash rel hnames
    | dir ds => exact suffix_slash (relName rel)

/-- C5, amended, at the folder `/a/b` of the example tree. -/
theorem archive_entry_names_witness :
    (downloadFile none exampleFs noFaults "/a" "b").entries.map (fun e => e.name) =
      ["./", "sub/", "sub/y.txt", "x.txt"] :=
  (archive_entry_names none exampleFs noFaults "/a" "b"
    [("sub", .dir [("y.txt", .file "yo")]), ("x.txt", .file "hi")]
    noFaults_quiet (by decide) (by decide) (by decide) (by decide) rfl (by decide)).1

/-- C6: `createFolder` without a folder name, in a directory with listing `cs`
(the working directory being absolute): the default names are `New Folder`,
`New Folder (1)`, `New Folder (2)`, ...; the name chosen is the first of them
without an entry in the directory, given enough rounds of the loop, and one
round more than the directory has entries is always enough; hence two calls in
a row in a directory holding neither `New Folder` nor `New Folder (1)` create
`New Folder` and then `New Folder (1)`. -/
theorem createFolder_default_name_choice (getwd : Option String)
    (hwd : ∀ wd, getwd = some wd → filepath.IsAbs wd = true)
    (fs : Node) (raw : String) (d : List String) (cs : List (String × Node))
    (hraw : raw ≠ "") (hres : resolve getwd (filepath.Clean raw) = some d)
    (hdir : fs.find d = .ok (.dir cs)) :
    (defaultName 0 = "New Folder" ∧
      ∀ n, defaultName (n + 1) = "New Folder (" ++ toString (n + 1) ++ ")") ∧
    (∀ n fuel, n < fuel →
      (∀ m, m < n → (cs.lookup (defaultName m)).isSome = true) →
      cs.lookup (defaultName n) = none →
      chooseFolderName getwd fs fuel (filepath.Clean raw) "" = some (defaultName n)) ∧
    (∃ n, n ≤ cs.length ∧
      (∀ m, m < n → (cs.lookup (defaultName m)).isSome = true) ∧
      cs.lookup (defaultName n) = none ∧
      ∀ fuel, cs.length < fuel →
        chooseFolderName getwd fs fuel (filepath.Clean raw) "" = some (defaultName n)) ∧
    (cs.lookup "New Folder" = none → cs.lookup "New Folder (1)" = none →
      ∀ fuel, 2 ≤ fuel →
      ∃ fs1 fs2,
        createFolder getwd fs fuel "POST" none raw "" =
          some (.redirect (filepath.Clean raw) "success"
            "Folder \x27New Folder\x27 created successfully", fs1) ∧
        createFolder getwd fs1 fuel "POST" none raw "" =
          some (.redirect (filepath.Clean raw) "success"
            "Folder \x27New Folder (1)\x27 created successfully", fs2) ∧
        fs2.find d = .ok (.dir (putChild "New Folder (1)" (.dir [])
          (putChild "New Folder" (.dir []) cs)))) := by
  refine ⟨⟨rfl, fun _ => rfl⟩, ?_, ?_, ?_⟩
  · intro n fuel hfuel hused hfree
    exact (createFolder_default hwd hraw hres hdir n fuel hfuel hused hfree).1
  · obtain ⟨n, hn, hused, hfree⟩ := exists_free_defaultName cs
    exact ⟨n, hn, hused, hfree, fun fuel hfuel =>
      (createFolder_default hwd hraw hres hdir n fuel (by omega) hused hfree).1⟩
  · intro h0 h1 fuel hfuel
    obtain ⟨_, fs1, hc1, hf1⟩ := createFolder_default hwd hraw hres hdir 0 fuel (by omega)
      (fun m hm => absurd hm (Nat.not_lt_zero m)) h0
    have hne : ("New Folder (1)" : String) ≠ "New Folder" := by decide
    obtain ⟨_, fs2, hc2, hf2⟩ := createFolder_default hwd hraw hres hf1 1 fuel (by omega)
      (fun m hm => by
        have : m = 0 := by omega
        subst this
        show (List.lookup "New Folder" (putChild "New Folder" (.dir []) cs)).isSome = true
        rw [lookup_putChild_self]; rfl)
      (by
        show List.lookup "New Folder (1)" (putChild "New Folder" (.dir []) cs) = none
        rw [lookup_putChild_other _ _ _ _ hne]; exact h1)
    exact ⟨fs1, fs2, hc1, hc2, hf2⟩

/-- C6 at the empty folder `/a/e` of the example tree: one round of the loop
chooses `New Folder`. -/
theorem createFolder_default_name_choice_witness :
    chooseFolderName none exampleFs 1 (filepath.Clean "/a/e") "" = some "New Folder" :=
  (createFolder_default_name_choice none (fun _ h => Option.noConfusion h) exampleFs "/a/e"
    ["a", "e"] [] (by decide) (by decide) rfl).2.1 0 1 (by decide)
    (fun m hm => absurd hm (Nat.not_lt_zero m)) rfl

end RemoteAccess
